import Mathlib

/-!
Verification of the DumbDrop file-management core (`src/routes/files.js` and
the file-system utilities it uses).  The JavaScript code is embedded shallowly:

* Node's `path.posix` functions (`join`, `resolve`, `normalize`, `dirname`,
  `basename`, `extname`) are reimplemented over `List Char`, following the
  algorithms in Node's `lib/path.js`.
* `sanitizeFilenameSafe` is translated step by step from `fileUtils.js`.
* The HTTP route handlers are modelled as pure functions from an abstract
  file-system snapshot to the ordered trace of file-system syscalls they issue
  together with the HTTP status they answer.
-/

namespace DumbDrop

/-! ### Generic character/list helpers -/

/-- Drop the longest suffix of `l` all of whose characters satisfy `p`. -/
def dropTrailing (p : Char → Bool) (l : List Char) : List Char :=
  (l.reverse.dropWhile p).reverse

/-- Worker for `collapseRuns`; the flag records whether the previous character
was part of a run being collapsed. -/
def collapseRunsGo (p : Char → Bool) (c : Char) : List Char → Bool → List Char
  | [], _ => []
  | a :: rest, inRun =>
    if p a then
      if inRun then collapseRunsGo p c rest true
      else c :: collapseRunsGo p c rest true
    else a :: collapseRunsGo p c rest false

/-- JavaScript `str.replace(/X+/g, c)` for a character class `X`: every maximal
run of characters satisfying `p` is replaced by the single character `c`. -/
def collapseRuns (p : Char → Bool) (c : Char) (l : List Char) : List Char :=
  collapseRunsGo p c l false

/-- `true` iff the list contains two adjacent characters both satisfying `p`. -/
def adjPair (p : Char → Bool) : List Char → Bool
  | a :: b :: rest => (p a && p b) || adjPair p (b :: rest)
  | _ => false

/-- Structural prefix test on character lists. -/
def isPrefixOfChars : List Char → List Char → Bool
  | [], _ => true
  | _ :: _, [] => false
  | a :: as, b :: bs => a == b && isPrefixOfChars as bs

/-- JavaScript `s.startsWith(pre)`. -/
def strStartsWith (s pre : String) : Bool :=
  isPrefixOfChars pre.data s.data

/-- Characters matched by the JavaScript regexp class `\s` (also the set used
by `String.prototype.trim`): space, tab, LF, CR, VT, FF, NBSP, the Unicode
space separators, the line separators and the BOM, by code point. -/
def isJsWhitespaceChar (c : Char) : Bool :=
  let n := c.toNat
  n == 32 || n == 9 || n == 10 || n == 13 || n == 11 || n == 12 ||
  n == 0xa0 || n == 0x1680 || (0x2000 ≤ n && n ≤ 0x200a) ||
  n == 0x2028 || n == 0x2029 || n == 0x202f || n == 0x205f ||
  n == 0x3000 || n == 0xfeff

/-- `[A-Za-z]` by code point. -/
def isAsciiLetter (c : Char) : Bool :=
  let n := c.toNat
  (65 ≤ n && n ≤ 90) || (97 ≤ n && n ≤ 122)

/-- `[0-9]` by code point. -/
def isAsciiDigit (c : Char) : Bool :=
  let n := c.toNat
  48 ≤ n && n ≤ 57

def isAsciiAlnum (c : Char) : Bool := isAsciiLetter c || isAsciiDigit c

/-- The JavaScript regexp class `\w`, i.e. `[A-Za-z0-9_]`. -/
def isWordChar (c : Char) : Bool := isAsciiAlnum c || c.toNat == 95

/-- `String.prototype.toLowerCase`, modelled on the ASCII range (the code only
applies it to strings previously filtered down to ASCII). -/
def jsToLowerAscii (c : Char) : Char :=
  let n := c.toNat
  if 65 ≤ n && n ≤ 90 then Char.ofNat (n + 32) else c

/-- `String.prototype.toUpperCase`, modelled on the ASCII range. -/
def jsToUpperAscii (c : Char) : Char :=
  let n := c.toNat
  if 97 ≤ n && n ≤ 122 then Char.ofNat (n - 32) else c

/-- `String.prototype.trim`. -/
def jsTrim (s : String) : String :=
  String.mk (dropTrailing isJsWhitespaceChar (s.data.dropWhile isJsWhitespaceChar))

/-! ### Node `path.posix`, modelled over `List Char` -/

/-- Split on `'/'` (keeping empty segments, like `"a//b".split('/')`). -/
def splitSlash : List Char → List (List Char)
  | [] => [[]]
  | c :: rest =>
    if c == '/' then [] :: splitSlash rest
    else
      match splitSlash rest with
      | [] => [[c]]
      | g :: gs => (c :: g) :: gs

/-- Join segments with `'/'`. -/
def interSlash : List (List Char) → List Char
  | [] => []
  | [g] => g
  | g :: gs => g ++ '/' :: interSlash gs

/-- Node's `normalizeString`: process the segments of a path, dropping empty
and `.` segments and resolving `..` (kept at the front only when
`allowAboveRoot`, i.e. for relative paths).  `acc` is the reversed stack of
output segments. -/
def normSegs (allowAboveRoot : Bool) (acc : List (List Char)) :
    List (List Char) → List (List Char)
  | [] => acc.reverse
  | s :: rest =>
    if s = [] ∨ s = ['.'] then normSegs allowAboveRoot acc rest
    else if s = ['.', '.'] then
      match acc with
      | [] => normSegs allowAboveRoot (if allowAboveRoot then [s] else []) rest
      | t :: acc' =>
        if t = ['.', '.'] then normSegs allowAboveRoot (s :: acc) rest
        else normSegs allowAboveRoot acc' rest
    else normSegs allowAboveRoot (s :: acc) rest

/-- Node `path.posix.normalize`. -/
def normalizeChars (cs : List Char) : List Char :=
  if cs = [] then ['.']
  else
    let isAbs := cs.head? == some '/'
    let hasTrail := cs.getLast? == some '/'
    let core := interSlash (normSegs (!isAbs) [] (splitSlash cs))
    if core = [] then
      if isAbs then ['/'] else if hasTrail then ['.', '/'] else ['.']
    else
      (if isAbs then '/' :: core else core) ++ (if hasTrail then ['/'] else [])

def pathNormalize (s : String) : String := String.mk (normalizeChars s.data)

/-- Node `path.posix.join` for two arguments: empty parts are skipped, the
rest are joined with `'/'` and normalized. -/
def pathJoin (a b : String) : String :=
  if a == "" && b == "" then "."
  else if a == "" then pathNormalize b
  else if b == "" then pathNormalize a
  else String.mk (normalizeChars (a.data ++ '/' :: b.data))

/-- Node `path.posix.resolve`, modelled for absolute inputs (the deployed
configuration uses an absolute upload directory; for a relative input Node
would first prepend the process working directory). -/
def pathResolve (p : String) : String :=
  String.mk ('/' :: interSlash (normSegs false [] (splitSlash p.data)))

/-- The last portion of a path: what remains after stripping trailing slashes
and then everything up to the last remaining `'/'`. -/
def lastPortion (cs : List Char) : List Char :=
  ((dropTrailing (· == '/') cs).reverse.takeWhile (· != '/')).reverse

/-- Node `path.posix.extname` restricted to a path portion without slashes:
empty if the portion has no dot, if its only dot is the leading character, or
if the portion is exactly `".."`; otherwise the suffix from the last dot. -/
def extnamePortion (p : List Char) : List Char :=
  let rts := p.reverse.takeWhile (· != '.')
  if rts.length = p.length then []
  else
    let d := p.length - rts.length - 1
    if d = 0 then []
    else if p = ['.', '.'] then []
    else p.drop d

def pathExtname (s : String) : String :=
  String.mk (extnamePortion (lastPortion s.data))

/-- Node `path.posix.basename(s, ext)`: the last portion, with the suffix
`ext` removed when the portion ends with `ext` but is not exactly `ext`. -/
def pathBasename (s ext : String) : String :=
  let portion := lastPortion s.data
  if ext.data.isSuffixOf portion ∧ portion ≠ ext.data then
    String.mk (portion.take (portion.length - ext.data.length))
  else String.mk portion

/-- Node `path.posix.dirname`. -/
def dirnameChars : List Char → List Char
  | [] => ['.']
  | c0 :: body =>
    let hasRoot := c0 == '/'
    let t := dropTrailing (· == '/') body
    let seg := t.reverse.takeWhile (· != '/')
    if seg.length = t.length then
      if hasRoot then ['/'] else ['.']
    else
      let endIdx := t.length - seg.length
      if hasRoot && endIdx == 1 then ['/', '/']
      else (c0 :: body).take endIdx

def pathDirname (s : String) : String := String.mk (dirnameChars s.data)

/-! ### `sanitizeFilenameSafe` (from `src/utils/fileUtils.js`) -/

/-- Unicode NFD decomposition of one scalar, modelled on the Latin-1 block
(the decompositions `String.prototype.normalize('NFD')` applies there);
scalars outside the table are left undecomposed.  Every non-ASCII scalar is
deleted by the subsequent non-ASCII strip, so the table's entries only
determine which base letters survive the lossy transliteration. -/
def nfdChar (c : Char) : List Char :=
  if c.toNat < 0x80 then [c]
  else
    match c.toNat with
    | 0xC0 => ['A', Char.ofNat 0x300]
    | 0xC1 => ['A', Char.ofNat 0x301]
    | 0xC2 => ['A', Char.ofNat 0x302]
    | 0xC3 => ['A', Char.ofNat 0x303]
    | 0xC4 => ['A', Char.ofNat 0x308]
    | 0xC5 => ['A', Char.ofNat 0x30a]
    | 0xC7 => ['C', Char.ofNat 0x327]
    | 0xC8 => ['E', Char.ofNat 0x300]
    | 0xC9 => ['E', Char.ofNat 0x301]
    | 0xCA => ['E', Char.ofNat 0x302]
    | 0xCB => ['E', Char.ofNat 0x308]
    | 0xCC => ['I', Char.ofNat 0x300]
    | 0xCD => ['I', Char.ofNat 0x301]
    | 0xCE => ['I', Char.ofNat 0x302]
    | 0xCF => ['I', Char.ofNat 0x308]
    | 0xD1 => ['N', Char.ofNat 0x303]
    | 0xD2 => ['O', Char.ofNat 0x300]
    | 0xD3 => ['O', Char.ofNat 0x301]
    | 0xD4 => ['O', Char.ofNat 0x302]
    | 0xD5 => ['O', Char.ofNat 0x303]
    | 0xD6 => ['O', Char.ofNat 0x308]
    | 0xD9 => ['U', Char.ofNat 0x300]
    | 0xDA => ['U', Char.ofNat 0x301]
    | 0xDB => ['U', Char.ofNat 0x302]
    | 0xDC => ['U', Char.ofNat 0x308]
    | 0xDD => ['Y', Char.ofNat 0x301]
    | 0xE0 => ['a', Char.ofNat 0x300]
    | 0xE1 => ['a', Char.ofNat 0x301]
    | 0xE2 => ['a', Char.ofNat 0x302]
    | 0xE3 => ['a', Char.ofNat 0x303]
    | 0xE4 => ['a', Char.ofNat 0x308]
    | 0xE5 => ['a', Char.ofNat 0x30a]
    | 0xE7 => ['c', Char.ofNat 0x327]
    | 0xE8 => ['e', Char.ofNat 0x300]
    | 0xE9 => ['e', Char.ofNat 0x301]
    | 0xEA => ['e', Char.ofNat 0x302]
    | 0xEB => ['e', Char.ofNat 0x308]
    | 0xEC => ['i', Char.ofNat 0x300]
    | 0xED => ['i', Char.ofNat 0x301]
    | 0xEE => ['i', Char.ofNat 0x302]
    | 0xEF => ['i', Char.ofNat 0x308]
    | 0xF1 => ['n', Char.ofNat 0x303]
    | 0xF2 => ['o', Char.ofNat 0x300]
    | 0xF3 => ['o', Char.ofNat 0x301]
    | 0xF4 => ['o', Char.ofNat 0x302]
    | 0xF5 => ['o', Char.ofNat 0x303]
    | 0xF6 => ['o', Char.ofNat 0x308]
    | 0xF9 => ['u', Char.ofNat 0x300]
    | 0xFA => ['u', Char.ofNat 0x301]
    | 0xFB => ['u', Char.ofNat 0x302]
    | 0xFC => ['u', Char.ofNat 0x308]
    | 0xFD => ['y', Char.ofNat 0x301]
    | 0xFF => ['y', Char.ofNat 0x308]
    | _ => [c]

/-- `.normalize('NFD')`. -/
def nfdAll (l : List Char) : List Char := (l.map nfdChar).flatten

/-- `.replace(/[̀-ͯ]/g, '')`. -/
def stripDiacritics (l : List Char) : List Char :=
  l.filter (fun c => !(0x300 ≤ c.toNat && c.toNat ≤ 0x36f))

/-- `.replace(/[^\x00-\x7F]/g, '')`. -/
def stripNonAscii (l : List Char) : List Char :=
  l.filter (fun c => c.toNat ≤ 0x7f)

/-- The class `[+\-\s]`: plus (43), hyphen (45) and whitespace. -/
def isPlusMinusWs (c : Char) : Bool :=
  c.toNat == 43 || c.toNat == 45 || isJsWhitespaceChar c

/-- The class `[<>:"/\\|?*]` (filesystem-reserved characters), by code point:
`<` `>` `:` `"` `/` `\` `|` `?` `*`. -/
def isFsReservedChar (c : Char) : Bool :=
  let n := c.toNat
  n == 60 || n == 62 || n == 58 || n == 34 || n == 47 ||
  n == 92 || n == 124 || n == 63 || n == 42

/-- The shell-metacharacter class in step 3 of the sanitizer, by code point:
backquote, double quote, apostrophe, `$` `|` `;` `&` `<` `>` `(` `)`, the two
curly brackets, `[` `]`. -/
def isShellChar (c : Char) : Bool :=
  let n := c.toNat
  n == 96 || n == 34 || n == 39 || n == 36 || n == 124 || n == 59 ||
  n == 38 || n == 60 || n == 62 || n == 40 || n == 41 || n == 123 ||
  n == 125 || n == 91 || n == 93

/-- The "additional problematic characters" class in step 3 of the sanitizer,
by code point: `~` `#` `%` `&` `*`, the two curly brackets, `\` `:` `<` `>`
`?` `/` `+` `|`, double quote, apostrophe. -/
def isMiscChar (c : Char) : Bool :=
  let n := c.toNat
  n == 126 || n == 35 || n == 37 || n == 38 || n == 42 || n == 123 ||
  n == 125 || n == 92 || n == 58 || n == 60 || n == 62 || n == 63 ||
  n == 47 || n == 43 || n == 124 || n == 34 || n == 39

/-- The class `[._-]` trimmed from both ends of the base name (46, 95, 45). -/
def isTrimEdgeChar (c : Char) : Bool :=
  let n := c.toNat
  n == 46 || n == 95 || n == 45

/-- The keep-class `[\w\-_.]` of the sanitizer's step 3 (everything else is
removed). -/
def isBaseKeepChar (c : Char) : Bool :=
  isWordChar c || c.toNat == 45 || c.toNat == 95 || c.toNat == 46

/-- Steps 1-3 of `sanitizeFilenameSafe` up to the underscore collapsing:
Unicode normalization and ASCII transliteration, whitespace/`+`/`-`
collapsing, and the four character-stripping replaces. -/
def preClean (l : List Char) : List Char :=
  ((((collapseRuns isPlusMinusWs '_' (collapseRuns isJsWhitespaceChar '_'
      (stripNonAscii (stripDiacritics (nfdAll l))))).filter
      (fun c => !isFsReservedChar c)).filter
      (fun c => !isShellChar c)).filter (fun c => !isMiscChar c)).filter
      isBaseKeepChar

/-- Steps 1-3 of `sanitizeFilenameSafe` applied to the base name: `preClean`,
then underscore collapsing and edge trimming. -/
def cleanBase (l : List Char) : List Char :=
  dropTrailing isTrimEdgeChar
    ((collapseRuns (· == '_') '_' (preClean l)).dropWhile isTrimEdgeChar)

/-- Invariant character set of cleaned base names: ASCII alphanumerics,
underscore and dot (hyphens are collapsed away in step 2, so unlike the
keep-class of step 3 they cannot survive). -/
def isCleanBaseChar (c : Char) : Bool :=
  isAsciiAlnum c || c.toNat == 95 || c.toNat == 46

/-- The character set `[A-Za-z0-9._-]` the specification allows in sanitizer
output. -/
def isClaimAllowedChar (c : Char) : Bool :=
  isAsciiAlnum c || c.toNat == 46 || c.toNat == 95 || c.toNat == 45

/-- Windows reserved device names (step 5 of the sanitizer). -/
def reservedNames : List String :=
  ["CON", "PRN", "AUX", "NUL",
   "COM1", "COM2", "COM3", "COM4", "COM5", "COM6", "COM7", "COM8", "COM9",
   "LPT1", "LPT2", "LPT3", "LPT4", "LPT5", "LPT6", "LPT7", "LPT8", "LPT9"]

/-- The sanitizer's raw base name: `path.basename(fileName, ext)`, defaulted
to `unnamed_file` when empty or whitespace-only. -/
def baseInput (fileName : String) : List Char :=
  if pathBasename fileName (pathExtname fileName) == "" ||
      jsTrim (pathBasename fileName (pathExtname fileName)) == "" then
    "unnamed_file".data
  else (pathBasename fileName (pathExtname fileName)).data

/-- The sanitizer's base name right before the reserved-device-name check
(steps 1-4: clean the raw base, default an emptied-out result to `file`). -/
def baseBeforeReserved (fileName : String) : List Char :=
  if cleanBase (baseInput fileName) = [] then "file".data
  else cleanBase (baseInput fileName)

/-- The sanitizer's base name right before the length truncation (step 5:
suffix reserved device names with `_file`). -/
def baseAfterReserved (fileName : String) : List Char :=
  if reservedNames.contains
      (String.mk ((baseBeforeReserved fileName).map jsToUpperAscii)) then
    baseBeforeReserved fileName ++ "_file".data
  else baseBeforeReserved fileName

/-- Step 7: clean the extension (keep alphanumerics and dots, lowercase,
ensure a leading dot when non-empty). -/
def cleanExtChars (ext : String) : List Char :=
  if ext == "" then []
  else if (ext.data.filter
      (fun c => isAsciiAlnum c || c == '.')).map jsToLowerAscii = [] then []
  else if ((ext.data.filter
      (fun c => isAsciiAlnum c || c == '.')).map jsToLowerAscii).head? =
      some '.' then
    (ext.data.filter (fun c => isAsciiAlnum c || c == '.')).map jsToLowerAscii
  else
    '.' :: (ext.data.filter
      (fun c => isAsciiAlnum c || c == '.')).map jsToLowerAscii

/-- `sanitizeFilenameSafe` from `src/utils/fileUtils.js` (the branch for a
string argument; `sanitizeAnyInput` adds the non-string guard): the truncated
base recombined with the cleaned extension, with the final safety fallback to
`file` plus the extension (or `.txt`). -/
def sanitizeFilenameSafe (fileName : String) : String :=
  if fileName == "" then "unnamed_file"
  else if (baseAfterReserved fileName).take 200 ++
        cleanExtChars (pathExtname fileName) = [] ∨
      (baseAfterReserved fileName).take 200 ++
        cleanExtChars (pathExtname fileName) =
        cleanExtChars (pathExtname fileName) then
    String.mk ("file".data ++
      (if cleanExtChars (pathExtname fileName) = [] then ".txt".data
        else cleanExtChars (pathExtname fileName)))
  else
    String.mk ((baseAfterReserved fileName).take 200 ++
      cleanExtChars (pathExtname fileName))

/-- `sanitizeFilenameSafe` on an arbitrary argument: a missing or non-string
value (modelled as `none`) takes the `unnamed_file` early return. -/
def sanitizeAnyInput : Option String → String
  | none => "unnamed_file"
  | some s => sanitizeFilenameSafe s

/-! ### Unique path allocators (`getUniqueFilePath` / `getUniqueFolderPath`)

The allocation attempt itself is the atomic exclusive create
(`fs.promises.open(path, 'wx')` for files, `fs.promises.mkdir(path,
{recursive: false})` for directories); the loops issue no other filesystem
operation, so the returned attempt trace is exactly the list of exclusive
creates performed, in order. -/

/-- Outcome of one exclusive-create attempt: success (with the still-open
handle for files), failure because the target already exists (`EEXIST`), or
any other error, identified by a numeric code. -/
inductive OpenResult where
  | ok (handle : Nat)
  | eexist
  | err (code : Nat)
deriving DecidableEq

/-- Outcome of an allocation loop under bounded fuel (`spin` = fuel ran out;
the source loop is unbounded). -/
inductive AllocOutcome where
  | ok (path : String) (handle : Nat)
  | fatal (code : Nat)
  | spin
deriving DecidableEq

/-- The retry loop of `getUniqueFilePath`: attempt the exclusive create at
`finalPath`; on `EEXIST` continue at `path.join(dir, baseName + " (" +
counter + ")" + ext)` with the counter incremented; any other error is
propagated.  Returns the ordered list of attempted paths with the outcome. -/
def allocFileLoop (attempt : String → OpenResult) (dir baseName ext : String) :
    Nat → String → Nat → List String × AllocOutcome
  | 0, _, _ => ([], AllocOutcome.spin)
  | fuel + 1, finalPath, counter =>
    match attempt finalPath with
    | OpenResult.ok h => ([finalPath], AllocOutcome.ok finalPath h)
    | OpenResult.err e => ([finalPath], AllocOutcome.fatal e)
    | OpenResult.eexist =>
      let rest := allocFileLoop attempt dir baseName ext fuel
        (pathJoin dir (baseName ++ " (" ++ toString counter ++ ")" ++ ext))
        (counter + 1)
      (finalPath :: rest.1, rest.2)

/-- `getUniqueFilePath` from `src/utils/fileUtils.js`, modelled with an
attempt oracle and fuel: the loop starts at the desired path with the
counter at 1. -/
def getUniqueFilePath (attempt : String → OpenResult) (filePath : String)
    (fuel : Nat) : List String × AllocOutcome :=
  allocFileLoop attempt (pathDirname filePath)
    (pathBasename filePath (pathExtname filePath)) (pathExtname filePath)
    fuel filePath 1

/-- The retry loop of `getUniqueFolderPath`: on `EEXIST` the next candidate
is the original `folderPath` with `" (" + counter + ")"` appended. -/
def allocDirLoop (attempt : String → OpenResult) (folderPath : String) :
    Nat → String → Nat → List String × AllocOutcome
  | 0, _, _ => ([], AllocOutcome.spin)
  | fuel + 1, finalPath, counter =>
    match attempt finalPath with
    | OpenResult.ok h => ([finalPath], AllocOutcome.ok finalPath h)
    | OpenResult.err e => ([finalPath], AllocOutcome.fatal e)
    | OpenResult.eexist =>
      let rest := allocDirLoop attempt folderPath fuel
        (folderPath ++ " (" ++ toString counter ++ ")") (counter + 1)
      (finalPath :: rest.1, rest.2)

/-- `getUniqueFolderPath` from `src/utils/fileUtils.js` (the handle in a
successful outcome is meaningless for directories). -/
def getUniqueFolderPath (attempt : String → OpenResult) (folderPath : String)
    (fuel : Nat) : List String × AllocOutcome :=
  allocDirLoop attempt folderPath fuel folderPath 1

/-- The n-th path the file allocator tries: candidate 0 is the desired path,
retry n is `baseName (n)ext` joined back onto the directory. -/
def fileCandidate (filePath : String) : Nat → String
  | 0 => filePath
  | n + 1 => pathJoin (pathDirname filePath)
      (pathBasename filePath (pathExtname filePath) ++ " (" ++
        toString (n + 1) ++ ")" ++ pathExtname filePath)

/-- The n-th path the folder allocator tries. -/
def dirCandidate (folderPath : String) : Nat → String
  | 0 => folderPath
  | n + 1 => folderPath ++ " (" ++ toString (n + 1) ++ ")"

/-! ### Abstract file-system snapshot, syscall traces and route handlers -/

/-- One file-system entry (file or directory). -/
structure FsEntry where
  isDirectory : Bool
  content : String
  size : Nat
  mtime : Nat
deriving DecidableEq

/-- A snapshot of the file system: an association list from absolute path to
entry. -/
structure Fsys where
  entries : List (String × FsEntry)
deriving DecidableEq

def Fsys.find (f : Fsys) (p : String) : Option FsEntry := f.entries.lookup p

def Fsys.hasPath (f : Fsys) (p : String) : Bool := (f.find p).isSome

/-- The file-system syscalls the route handlers issue, in order. -/
inductive FsOp where
  | access (p : String)
  | stat (p : String)
  | readStream (p : String)
  | unlink (p : String)
  | rmRecursive (p : String)
  | rename (src dst : String)
deriving DecidableEq

/-- HTTP statuses answered by the handlers: 200, 400, 403, 404, 409, 500. -/
inductive HttpStatus where
  | ok
  | badRequest
  | forbidden
  | notFound
  | conflict
  | serverError
deriving DecidableEq

/-- Effect of one syscall on the snapshot (`access`/`stat`/`readStream` do not
mutate it). -/
def applyOp (f : Fsys) : FsOp → Fsys
  | FsOp.unlink p => ⟨f.entries.filter (fun pr => !(pr.1 == p))⟩
  | FsOp.rmRecursive p =>
    ⟨f.entries.filter (fun pr => !(pr.1 == p || strStartsWith pr.1 (p ++ "/")))⟩
  | FsOp.rename src dst =>
    match f.find src with
    | some e => ⟨(dst, e) :: f.entries.filter (fun pr => !(pr.1 == src))⟩
    | none => f
  | _ => f

def applyOps (f : Fsys) (ops : List FsOp) : Fsys := ops.foldl applyOp f

/-- The security check shared by the info, download, delete and rename
handlers: `path.resolve(target).startsWith(path.resolve(config.uploadDir))`. -/
def passesSecurityCheck (uploadDir candidate : String) : Bool :=
  strStartsWith (pathResolve candidate) (pathResolve uploadDir)

/-- Modelled from the spec: containment holds iff the canonical candidate
equals the canonical root, or starts with the canonical root followed
immediately by a path separator. -/
def isContainedSpec (candidate root : String) : Bool :=
  candidate == root || strStartsWith candidate (root ++ "/")

/-- `router.get('/info/*')`: guard, then `fs.stat` (a failure is answered with
404). -/
def infoRoute (uploadDir param : String) (fsys : Fsys) :
    List FsOp × HttpStatus :=
  let filePath := pathJoin uploadDir param
  if !passesSecurityCheck uploadDir filePath then ([], HttpStatus.forbidden)
  else
    match fsys.find filePath with
    | some _ => ([FsOp.stat filePath], HttpStatus.ok)
    | none => ([FsOp.stat filePath], HttpStatus.notFound)

/-- `router.get('/download/*')`: `fs.access` first, then the guard, then the
streamed read. -/
def downloadRoute (uploadDir param : String) (fsys : Fsys) :
    List FsOp × HttpStatus :=
  let filePath := pathJoin uploadDir param
  match fsys.find filePath with
  | none => ([FsOp.access filePath], HttpStatus.notFound)
  | some _ =>
    if !passesSecurityCheck uploadDir filePath then
      ([FsOp.access filePath], HttpStatus.forbidden)
    else
      ([FsOp.access filePath, FsOp.readStream filePath], HttpStatus.ok)

/-- `router.delete('/*')`: guard, then `fs.access`, `fs.stat`, and the
recursive or plain removal. -/
def deleteRoute (uploadDir param : String) (fsys : Fsys) :
    List FsOp × HttpStatus :=
  let itemPath := pathJoin uploadDir param
  if !passesSecurityCheck uploadDir itemPath then ([], HttpStatus.forbidden)
  else
    match fsys.find itemPath with
    | none => ([FsOp.access itemPath], HttpStatus.notFound)
    | some e =>
      if e.isDirectory then
        ([FsOp.access itemPath, FsOp.stat itemPath, FsOp.rmRecursive itemPath],
         HttpStatus.ok)
      else
        ([FsOp.access itemPath, FsOp.stat itemPath, FsOp.unlink itemPath],
         HttpStatus.ok)

/-- `router.put('/rename/*')`: body validation, source guard, source
`fs.access`/`fs.stat`, sanitization, destination guard, destination existence
probe (409 when present), then `fs.rename`.  A missing or non-string body
field is modelled as `none`. -/
def renameRoute (uploadDir param : String) (newName : Option String)
    (fsys : Fsys) : List FsOp × HttpStatus :=
  match newName with
  | none => ([], HttpStatus.badRequest)
  | some s =>
    if s == "" || jsTrim s == "" then ([], HttpStatus.badRequest)
    else
      let currentPath := pathJoin uploadDir param
      let currentDir := pathDirname currentPath
      if !passesSecurityCheck uploadDir currentPath then ([], HttpStatus.forbidden)
      else
        match fsys.find currentPath with
        | none => ([FsOp.access currentPath], HttpStatus.notFound)
        | some _ =>
          let sanitizedNewName := sanitizeFilenameSafe (jsTrim s)
          let newPath := pathJoin currentDir sanitizedNewName
          if !passesSecurityCheck uploadDir newPath then
            ([FsOp.access currentPath, FsOp.stat currentPath], HttpStatus.forbidden)
          else if fsys.hasPath newPath then
            ([FsOp.access currentPath, FsOp.stat currentPath, FsOp.access newPath],
             HttpStatus.conflict)
          else
            ([FsOp.access currentPath, FsOp.stat currentPath, FsOp.access newPath,
              FsOp.rename currentPath newPath], HttpStatus.ok)

def emptyFsys : Fsys := ⟨[]⟩

/-- A regular path segment: nonempty, neither `.` nor `..`, and slash-free.
The segments of a normalized absolute path are all regular. -/
def regSeg (g : List Char) : Prop :=
  g ≠ [] ∧ g ≠ ['.'] ∧ g ≠ ['.', '.'] ∧ '/' ∉ g

/-! ### The recursive listing (`getDirectoryContents` and the list route) -/

/-- An on-disk directory tree: what `fs.readdir`/`fs.stat` observe.  A
directory's entries are listed in `readdir` order. -/
inductive FTree where
  | file (size mtime : Nat)
  | dir (mtime : Nat) (entries : List (String × FTree))

/-- One listing entry as built by `getDirectoryContents`.  The JS object's
`type: 'directory' | 'file'` string is modelled by the `isDir` flag;
`extension` is `''` for directories, `children` is `[]` for files. -/
inductive FItem where
  | mk (name : String) (isDir : Bool) (path : String) (size : Nat)
       (mtime : Nat) (extension : String) (children : List FItem)

def FItem.name : FItem → String
  | FItem.mk n _ _ _ _ _ _ => n

def FItem.isDir : FItem → Bool
  | FItem.mk _ d _ _ _ _ _ => d

/-- `calculateTotalSize`: files contribute their size, directories the
recursive total of their children (the JS `reduce` from `0` written as a
structural sum). -/
def calculateTotalSize : List FItem → Nat
  | [] => 0
  | FItem.mk _ isDir _ size _ _ children :: rest =>
    (if isDir then calculateTotalSize children else size) +
      calculateTotalSize rest

/-- `countFiles`: files count one, directories their recursive file count. -/
def countFiles : List FItem → Nat
  | [] => 0
  | FItem.mk _ isDir _ _ _ _ children :: rest =>
    (if isDir then countFiles children else 1) + countFiles rest

/-- `a.localeCompare(b) <= 0`, modelled as code-point comparison (ICU
collation agrees with code-point order on the names in the examples; the
sorting proofs rely only on this being a total preorder). -/
def charsLe : List Char → List Char → Bool
  | [], _ => true
  | _ :: _, [] => false
  | a :: as, b :: bs =>
    if a.toNat < b.toNat then true
    else if b.toNat < a.toNat then false
    else charsLe as bs

/-- The sort comparator of `getDirectoryContents`: when the types differ
directories come first (`a.type === 'directory' ? -1 : 1`), otherwise
`a.name.localeCompare(b.name)`. -/
def itemLe (a b : FItem) : Bool :=
  if a.isDir != b.isDir then a.isDir
  else charsLe a.name.data b.name.data

def sortInsert (a : FItem) : List FItem → List FItem
  | [] => [a]
  | b :: bs => if itemLe a b then a :: b :: bs else b :: sortInsert a bs

/-- `items.sort(cmp)`: `Array.prototype.sort` is a stable sort (ES2019),
modelled by stable insertion sort. -/
def sortItems : List FItem → List FItem
  | [] => []
  | a :: as => sortInsert a (sortItems as)

/-- `relativePath ? relativePath + '/' + entry : entry`. -/
def relName (rel entry : String) : String :=
  if rel == "" then entry else rel ++ "/" ++ entry

/-- `path.extname(entry).toLowerCase()`. -/
def extOf (entry : String) : String :=
  String.mk ((pathExtname entry).data.map jsToLowerAscii)

mutual
/-- The loop body of `getDirectoryContents` for one surviving entry: a file
yields a file item, a directory recurses and records the recursive total as
its size. -/
def buildEntry : String → FTree → String → FItem
  | entry, FTree.file size mtime, rel =>
    FItem.mk entry false (relName rel entry) size mtime (extOf entry) []
  | entry, FTree.dir mtime sub, rel =>
    FItem.mk entry true (relName rel entry)
      (calculateTotalSize (getDirectoryContents sub (relName rel entry)))
      mtime "" (getDirectoryContents sub (relName rel entry))

/-- The entry loop: `.metadata` and every name starting with `.` are
skipped at each level. -/
def buildItems : List (String × FTree) → String → List FItem
  | [], _ => []
  | (entry, t) :: rest, rel =>
    if entry == ".metadata" || strStartsWith entry "." then buildItems rest rel
    else buildEntry entry t rel :: buildItems rest rel

/-- `getDirectoryContents(dirPath, relativePath)` on the tree rooted at
`dirPath`: build the surviving entries, then sort. -/
def getDirectoryContents : List (String × FTree) → String → List FItem
  | entries, rel => sortItems (buildItems entries rel)
end

/-- `router.get('/')`: the recursive listing together with `totalFiles` and
`totalSize`. -/
def listRoute (entries : List (String × FTree)) : List FItem × Nat × Nat :=
  (getDirectoryContents entries "",
   countFiles (getDirectoryContents entries ""),
   calculateTotalSize (getDirectoryContents entries ""))

/-- Adjacent-pair ordering check: together with transitivity and totality of
`itemLe` this pins down the sorted shape of a level. -/
def itemsSortedOK : List FItem → Bool
  | [] => true
  | [_] => true
  | a :: b :: rest => itemLe a b && itemsSortedOK (b :: rest)

mutual
/-- Well-formedness of one listing entry: its name is not dot-prefixed, and
a directory's recorded size is exactly the recursive total of its children,
which again form a well-formed listing. -/
def itemOK : FItem → Bool
  | FItem.mk name isDir _ size _ _ children =>
    ! strStartsWith name "." &&
    (!isDir || ((size == calculateTotalSize children) && listingOK children))

def allOK : List FItem → Bool
  | [] => true
  | i :: rest => itemOK i && allOK rest

/-- Well-formedness of a listing level: ordered by the comparator, and every
entry well-formed (recursively). -/
def listingOK (items : List FItem) : Bool := itemsSortedOK items && allOK items
end

/-- The spec's example tree: a subdirectory `A` holding one 10-byte file and
a top-level 20-byte file `B`; `readdir` returns `B` first, so the listing
must reorder. -/
def demoTreeEntries : List (String × FTree) :=
  [("B", FTree.file 20 5), ("A", FTree.dir 7 [("f.txt", FTree.file 10 3)])]

/-! ### Concurrent callers of the file allocator (for C6)

`getUniqueFilePath` is raced by `N` callers that all want the same desired
path.  Each caller runs the allocator loop: its next attempt is
`fsPromises.open(candidate, 'wx')` on candidate `fileCandidate dp k` — an
atomic create-if-absent that succeeds if and only if the path does not yet
exist, and creates it in the same step.  After success the caller writes
through its own exclusive handle, which is bound to the path it created.  An
adversarial scheduler interleaves the callers' attempts and writes. -/

/-- One caller of the allocator: the counter of its next candidate, and the
path of its exclusive handle once an attempt has succeeded. -/
structure CallerState where
  k : Nat
  result : Option String
deriving DecidableEq

/-- The shared state: the set of existing paths (what `open('wx')` checks
and extends atomically), the written file contents as `(path, writer,
data)` records, and the callers. -/
structure ConcState where
  disk : List String
  contents : List (String × Nat × Nat)
  callers : List CallerState
deriving DecidableEq

/-- A scheduler event: caller `i` performs its next exclusive-create
attempt, or caller `i` writes `d` through its handle. -/
inductive AEv where
  | attempt (i : Nat)
  | write (i : Nat) (d : Nat)
deriving DecidableEq

/-- One scheduler step.  An attempt by a finished or unknown caller is a
no-op; otherwise `open(candidate, 'wx')` either fails with `EEXIST` (the
caller increments its counter, as in the allocator loop) or atomically
creates the path and hands the caller the exclusive handle.  A write goes
to the path of the writer's own handle; callers without a handle cannot
write. -/
def stepEv (dp : String) (s : ConcState) : AEv → ConcState
  | AEv.attempt i =>
    match s.callers.get? i with
    | none => s
    | some c =>
      match c.result with
      | some _ => s
      | none =>
        if s.disk.contains (fileCandidate dp c.k) then
          { s with callers := s.callers.set i ⟨c.k + 1, none⟩ }
        else
          { disk := fileCandidate dp c.k :: s.disk,
            contents := s.contents,
            callers := s.callers.set i
              ⟨c.k, some (fileCandidate dp c.k)⟩ }
  | AEv.write i d =>
    match s.callers.get? i with
    | none => s
    | some c =>
      match c.result with
      | none => s
      | some p => { s with contents := (p, i, d) :: s.contents }

def runEvents (dp : String) (s : ConcState) : List AEv → ConcState
  | [] => s
  | e :: evs => runEvents dp (stepEv dp s e) evs

/-- `n` callers, all at counter 0 with no handle, empty disk. -/
def initState (n : Nat) : ConcState :=
  ⟨[], [], List.replicate n ⟨0, none⟩⟩

/-- The state invariant: acquired paths exist on disk, distinct callers hold
distinct paths, and every write record lies on its writer's own path. -/
def goodState (s : ConcState) : Prop :=
  (∀ i ci p, s.callers.get? i = some ci → ci.result = some p →
    p ∈ s.disk) ∧
  (∀ i j ci cj p q, s.callers.get? i = some ci →
    s.callers.get? j = some cj → ci.result = some p →
    cj.result = some q → i ≠ j → p ≠ q) ∧
  (∀ p w d, (p, w, d) ∈ s.contents → ∃ cw, s.callers.get? w = some cw ∧
    cw.result = some p)

/-- A concrete adversarial interleaving of three callers racing for
`/up/a.txt`. -/
def demoSchedule : List AEv :=
  [AEv.attempt 0, AEv.attempt 1, AEv.attempt 2, AEv.attempt 1,
   AEv.attempt 2, AEv.attempt 2, AEv.write 0 100, AEv.write 1 101,
   AEv.write 2 102]

/-- The state the demo schedule reaches: all three callers succeeded with
pairwise-distinct paths, and each file holds its own caller's write. -/
def demoFinal : ConcState :=
  ⟨["/up/a (2).txt", "/up/a (1).txt", "/up/a.txt"],
   [("/up/a (2).txt", 2, 102), ("/up/a (1).txt", 1, 101),
    ("/up/a.txt", 0, 100)],
   [⟨0, some "/up/a.txt"⟩, ⟨1, some "/up/a (1).txt"⟩,
    ⟨2, some "/up/a (2).txt"⟩]⟩

/-- A concrete snapshot for the rename-conflict witness: both `a.txt` and
`b.txt` exist under the upload root. -/
def renameDemoFsys : Fsys :=
  ⟨[("/data/uploads/a.txt", ⟨false, "alpha", 5, 0⟩),
    ("/data/uploads/b.txt", ⟨false, "beta", 4, 1⟩)]⟩

/-! ### Character kit -/

theorem char_eq_iff_toNat {c d : Char} : c = d ↔ c.toNat = d.toNat :=
  ⟨fun h => by rw [h], fun h => Char.ext (UInt32.toNat.inj h)⟩

theorem char_beq_iff_toNat {c d : Char} : (c == d) = true ↔ c.toNat = d.toNat := by
  rw [beq_iff_eq, char_eq_iff_toNat]

theorem data_mk (l : List Char) : (String.mk l).data = l := rfl

theorem mk_eq_empty {l : List Char} (h : String.mk l = "") : l = [] :=
  congrArg String.data h

theorem toNat_charOfNat {n : Nat} (h : n < 55296) : (Char.ofNat n).toNat = n := by
  have hv : n.isValidChar := Or.inl h
  unfold Char.ofNat
  rw [dif_pos hv]
  unfold Char.ofNatAux
  rfl

/-- Facts about characters in the invariant set of cleaned base names: they
belong to no removal class, are ASCII, are not combining marks and are not
slashes. -/
theorem cleanBaseChar_resolve {c : Char} (h : isCleanBaseChar c = true) :
    isJsWhitespaceChar c = false ∧ isPlusMinusWs c = false ∧
    isFsReservedChar c = false ∧ isShellChar c = false ∧ isMiscChar c = false ∧
    isBaseKeepChar c = true ∧ c.toNat ≤ 127 ∧
    (!(0x300 ≤ c.toNat && c.toNat ≤ 0x36f)) = true ∧ (c == '/') = false ∧
    isClaimAllowedChar c = true := by
  have h47 : ('/' : Char).toNat = 47 := rfl
  simp only [isCleanBaseChar, isAsciiAlnum, isAsciiLetter, isAsciiDigit,
    Bool.or_eq_true, Bool.and_eq_true, beq_iff_eq, decide_eq_true_eq] at h
  simp only [isJsWhitespaceChar, isPlusMinusWs, isFsReservedChar, isShellChar,
    isMiscChar, isBaseKeepChar, isWordChar, isAsciiAlnum, isAsciiLetter,
    isAsciiDigit, isClaimAllowedChar, Bool.or_eq_true, Bool.and_eq_true,
    Bool.or_eq_false_iff, Bool.and_eq_false_iff, Bool.not_eq_true',
    beq_iff_eq, beq_eq_false_iff_ne, ne_eq, decide_eq_true_eq,
    decide_eq_false_iff_not, char_eq_iff_toNat, h47]
  omega

/-! ### `collapseRuns` lemmas -/

theorem collapseRunsGo_mem {p : Char → Bool} {c x : Char} :
    ∀ {l : List Char} {b : Bool}, x ∈ collapseRunsGo p c l b →
      x = c ∨ (x ∈ l ∧ p x = false)
  | [], b => by simp [collapseRunsGo]
  | a :: rest, b => by
    unfold collapseRunsGo
    by_cases ha : p a = true
    · simp only [ha, if_true]
      by_cases hb : b = true
      · subst hb
        simp only [if_true]
        intro hx
        rcases collapseRunsGo_mem hx with h | ⟨h1, h2⟩
        · exact Or.inl h
        · exact Or.inr ⟨List.mem_cons_of_mem a h1, h2⟩
      · rw [Bool.not_eq_true] at hb
        subst hb
        simp only [Bool.false_eq_true, if_false, List.mem_cons]
        rintro (rfl | hx)
        · exact Or.inl rfl
        · rcases collapseRunsGo_mem hx with h | ⟨h1, h2⟩
          · exact Or.inl h
          · exact Or.inr ⟨Or.inr h1, h2⟩
    · rw [Bool.not_eq_true] at ha
      simp only [ha, Bool.false_eq_true, if_false, List.mem_cons]
      rintro (rfl | hx)
      · exact Or.inr ⟨Or.inl rfl, ha⟩
      · rcases collapseRunsGo_mem hx with h | ⟨h1, h2⟩
        · exact Or.inl h
        · exact Or.inr ⟨Or.inr h1, h2⟩

theorem collapseRuns_mem {p : Char → Bool} {c x : Char} {l : List Char}
    (h : x ∈ collapseRuns p c l) : x = c ∨ (x ∈ l ∧ p x = false) :=
  collapseRunsGo_mem h

/-- When the run flag is set, the output starts with a non-run character (if
it is non-empty). -/
theorem collapseRunsGo_true_head {p : Char → Bool} {c : Char} :
    ∀ {l : List Char} {x : Char},
      (collapseRunsGo p c l true).head? = some x → p x = false
  | [], x => by simp [collapseRunsGo]
  | a :: rest, x => by
    unfold collapseRunsGo
    by_cases ha : p a = true
    · simp only [ha, if_true]
      exact collapseRunsGo_true_head
    · rw [Bool.not_eq_true] at ha
      simp only [ha, Bool.false_eq_true, if_false, List.head?_cons,
        Option.some_inj]
      rintro rfl
      exact ha

theorem adjPair_cons_false {p : Char → Bool} {a : Char} {l : List Char}
    (h : adjPair p (a :: l) = false) : adjPair p l = false := by
  cases l with
  | nil => rfl
  | cons b r =>
    unfold adjPair at h
    exact (Bool.or_eq_false_iff.mp h).2

theorem adjPair_cons_head {p : Char → Bool} {a b : Char} {l : List Char}
    (h : adjPair p (a :: b :: l) = false) (ha : p a = true) : p b = false := by
  unfold adjPair at h
  have := (Bool.or_eq_false_iff.mp h).1
  rw [ha] at this
  simpa using this

/-- The output of `collapseRunsGo` has no two adjacent run characters. -/
theorem collapseRunsGo_adjPair {p : Char → Bool} {c : Char} (hc : p c = true) :
    ∀ (l : List Char) (b : Bool), adjPair p (collapseRunsGo p c l b) = false
  | [], _ => rfl
  | a :: rest, b => by
    unfold collapseRunsGo
    by_cases ha : p a = true
    · simp only [ha, if_true]
      by_cases hb : b = true
      · subst hb; simp only [if_true]
        exact collapseRunsGo_adjPair hc rest true
      · rw [Bool.not_eq_true] at hb
        subst hb
        simp only [Bool.false_eq_true, if_false]
        have htail := collapseRunsGo_adjPair hc rest true
        cases hh : collapseRunsGo p c rest true with
        | nil => rfl
        | cons y ys =>
          have hy : p y = false :=
            collapseRunsGo_true_head (by rw [hh]; rfl)
          unfold adjPair
          rw [hh] at htail
          rw [htail, hy]
          simp
    · rw [Bool.not_eq_true] at ha
      simp only [ha, Bool.false_eq_true, if_false]
      have htail := collapseRunsGo_adjPair hc rest false
      cases hh : collapseRunsGo p c rest false with
      | nil => rfl
      | cons y ys =>
        unfold adjPair
        rw [hh] at htail
        rw [htail, ha]
        simp

theorem collapseRuns_adjPair {p : Char → Bool} {c : Char} (hc : p c = true)
    (l : List Char) : adjPair p (collapseRuns p c l) = false :=
  collapseRunsGo_adjPair hc l false

/-- `collapseRuns` is the identity on lists without run characters. -/
theorem collapseRunsGo_eq_self {p : Char → Bool} {c : Char} :
    ∀ {l : List Char} {b : Bool}, (∀ x ∈ l, p x = false) →
      collapseRunsGo p c l b = l
  | [], _, _ => rfl
  | a :: rest, b, h => by
    have ha := h a (List.mem_cons_self _ _)
    unfold collapseRunsGo
    simp only [ha, Bool.false_eq_true, if_false]
    rw [collapseRunsGo_eq_self (fun x hx => h x (List.mem_cons_of_mem a hx))]

/-- `collapseRuns` is the identity when no two run characters are adjacent and
every run character is already `c`. -/
theorem collapseRunsGo_id {p : Char → Bool} {c : Char} :
    ∀ {l : List Char} {b : Bool}, adjPair p l = false →
      (∀ x ∈ l, p x = true → x = c) →
      (b = true → (∀ x, l.head? = some x → p x = false)) →
      collapseRunsGo p c l b = l
  | [], _, _, _, _ => rfl
  | a :: rest, b, hadj, hall, hb => by
    unfold collapseRunsGo
    by_cases ha : p a = true
    · have hb' : b = false := by
        cases b with
        | false => rfl
        | true => exact absurd ha (by rw [hb rfl a rfl]; simp)
      subst hb'
      simp only [ha, if_true, Bool.false_eq_true, if_false]
      have hac : a = c := hall a (List.mem_cons_self _ _) ha
      rw [hac]
      congr 1
      refine collapseRunsGo_id (adjPair_cons_false hadj)
        (fun x hx hpx => hall x (List.mem_cons_of_mem a hx) hpx) ?_
      intro _ x hx
      cases rest with
      | nil => simp at hx
      | cons y ys =>
        rw [List.head?_cons, Option.some_inj] at hx
        subst hx
        exact adjPair_cons_head hadj ha
    · rw [Bool.not_eq_true] at ha
      simp only [ha, Bool.false_eq_true, if_false]
      congr 1
      refine collapseRunsGo_id (adjPair_cons_false hadj)
        (fun x hx hpx => hall x (List.mem_cons_of_mem a hx) hpx) ?_
      simp

/-! ### `dropWhile` / `dropTrailing` lemmas -/

theorem dropWhile_eq_self_of_head {p : Char → Bool} {l : List Char}
    (h : ∀ x, l.head? = some x → p x = false) : l.dropWhile p = l := by
  cases l with
  | nil => rfl
  | cons a r => simp [List.dropWhile_cons, h a rfl]

theorem head_dropWhile_not {p : Char → Bool} {l : List Char} {x : Char}
    (h : (l.dropWhile p).head? = some x) : p x = false := by
  induction l with
  | nil => simp [List.dropWhile] at h
  | cons a r ih =>
    rw [List.dropWhile_cons] at h
    by_cases ha : p a = true
    · rw [if_pos ha] at h
      exact ih h
    · rw [Bool.not_eq_true] at ha
      rw [if_neg (by simp [ha])] at h
      rw [List.head?_cons, Option.some_inj] at h
      subst h
      exact ha

theorem dropTrailing_mem {p : Char → Bool} {l : List Char} {x : Char}
    (h : x ∈ dropTrailing p l) : x ∈ l := by
  unfold dropTrailing at h
  rw [List.mem_reverse] at h
  have h2 := (List.dropWhile_sublist (l := l.reverse) p).subset h
  rwa [List.mem_reverse] at h2

theorem dropTrailing_getLast {p : Char → Bool} {l : List Char} {x : Char}
    (h : (dropTrailing p l).getLast? = some x) : p x = false := by
  unfold dropTrailing at h
  rw [List.getLast?_reverse] at h
  exact head_dropWhile_not h

theorem dropTrailing_eq_self {p : Char → Bool} {l : List Char}
    (h : ∀ x, l.getLast? = some x → p x = false) : dropTrailing p l = l := by
  unfold dropTrailing
  rw [dropWhile_eq_self_of_head, List.reverse_reverse]
  intro x hx
  rw [List.head?_reverse] at hx
  exact h x hx

theorem dropTrailing_isPrefixOf (p : Char → Bool) (l : List Char) :
    dropTrailing p l <+: l := by
  refine List.reverse_suffix.mp ?_
  unfold dropTrailing
  rw [List.reverse_reverse]
  exact List.dropWhile_suffix p

theorem head?_of_isPrefixOf {l₁ l₂ : List Char} {x : Char} (h : l₁ <+: l₂)
    (hx : l₁.head? = some x) : l₂.head? = some x := by
  obtain ⟨t, rfl⟩ := h
  cases l₁ with
  | nil => simp at hx
  | cons a r => simpa using hx

/-! ### `adjPair` preservation lemmas -/

theorem adjPair_append_left {p : Char → Bool} :
    ∀ {l t : List Char}, adjPair p (l ++ t) = false → adjPair p l = false
  | [], _, _ => rfl
  | [_], _, _ => rfl
  | a :: b :: r, t, h => by
    have h' : adjPair p (a :: b :: (r ++ t)) = false := h
    unfold adjPair at h'
    obtain ⟨h1, h2⟩ := Bool.or_eq_false_iff.mp h'
    have h3 : adjPair p ((b :: r) ++ t) = false := h2
    unfold adjPair
    rw [Bool.or_eq_false_iff]
    exact ⟨h1, adjPair_append_left h3⟩

theorem adjPair_append_right {p : Char → Bool} :
    ∀ {t l : List Char}, adjPair p (t ++ l) = false → adjPair p l = false
  | [], _, h => h
  | a :: t, l, h => adjPair_append_right (t := t) (adjPair_cons_false h)

theorem adjPair_prefix {p : Char → Bool} {l₁ l₂ : List Char} (h : l₁ <+: l₂)
    (h2 : adjPair p l₂ = false) : adjPair p l₁ = false := by
  obtain ⟨t, rfl⟩ := h
  exact adjPair_append_left h2

theorem adjPair_suffix {p : Char → Bool} {l₁ l₂ : List Char} (h : l₁ <:+ l₂)
    (h2 : adjPair p l₂ = false) : adjPair p l₁ = false := by
  obtain ⟨t, rfl⟩ := h
  exact adjPair_append_right h2

theorem adjPair_append {p : Char → Bool} :
    ∀ {l m : List Char}, adjPair p l = false → adjPair p m = false →
      (∀ x y, l.getLast? = some x → m.head? = some y → (p x && p y) = false) →
      adjPair p (l ++ m) = false
  | [], m, _, hm, _ => hm
  | [a], m, _, hm, hcross => by
    cases m with
    | nil => rfl
    | cons y ys =>
      show adjPair p (a :: y :: ys) = false
      unfold adjPair
      rw [Bool.or_eq_false_iff]
      exact ⟨hcross a y rfl rfl, hm⟩
  | a :: b :: r, m, hl, hm, hcross => by
    show adjPair p (a :: b :: (r ++ m)) = false
    unfold adjPair
    rw [Bool.or_eq_false_iff]
    have h1 : (p a && p b) = false := by
      unfold adjPair at hl
      exact (Bool.or_eq_false_iff.mp hl).1
    refine ⟨h1, ?_⟩
    have hcross' : ∀ x y, (b :: r).getLast? = some x → m.head? = some y →
        (p x && p y) = false := by
      intro x y hx hy
      refine hcross x y ?_ hy
      rw [List.getLast?_cons_cons]
      exact hx
    exact adjPair_append (adjPair_cons_false hl) hm hcross'

/-! ### `cleanBase` invariants -/

theorem cleanBaseChar_of_keep {c : Char} (hk : isBaseKeepChar c = true)
    (hp : isPlusMinusWs c = false) : isCleanBaseChar c = true := by
  simp only [isBaseKeepChar, isWordChar, isAsciiAlnum, isAsciiLetter,
    isAsciiDigit, isPlusMinusWs, isJsWhitespaceChar, isCleanBaseChar,
    Bool.or_eq_true, Bool.and_eq_true, Bool.or_eq_false_iff, beq_iff_eq,
    beq_eq_false_iff_ne, ne_eq, decide_eq_true_eq, decide_eq_false_iff_not]
    at hk hp ⊢
  omega

theorem alnum_of_cleanBaseChar_not_trim {c : Char}
    (h1 : isCleanBaseChar c = true) (h2 : isTrimEdgeChar c = false) :
    isAsciiAlnum c = true := by
  simp only [isCleanBaseChar, isAsciiAlnum, isAsciiLetter, isAsciiDigit,
    isTrimEdgeChar, Bool.or_eq_true, Bool.and_eq_true, Bool.or_eq_false_iff,
    beq_iff_eq, beq_eq_false_iff_ne, ne_eq, decide_eq_true_eq,
    decide_eq_false_iff_not] at h1 h2 ⊢
  omega

theorem mem_preClean {l : List Char} {c : Char} (h : c ∈ preClean l) :
    isCleanBaseChar c = true := by
  unfold preClean at h
  rw [List.mem_filter] at h
  obtain ⟨h, hkeep⟩ := h
  rw [List.mem_filter] at h
  obtain ⟨h, _⟩ := h
  rw [List.mem_filter] at h
  obtain ⟨h, _⟩ := h
  rw [List.mem_filter] at h
  obtain ⟨h, _⟩ := h
  rcases collapseRuns_mem h with rfl | ⟨_, hpm⟩
  · decide
  · exact cleanBaseChar_of_keep hkeep hpm

theorem mem_cleanBase {l : List Char} {c : Char} (h : c ∈ cleanBase l) :
    isCleanBaseChar c = true := by
  unfold cleanBase at h
  have h1 := dropTrailing_mem h
  have h2 := (List.dropWhile_sublist (p := isTrimEdgeChar)).subset h1
  rcases collapseRuns_mem h2 with rfl | ⟨h3, _⟩
  · decide
  · exact mem_preClean h3

theorem mem_of_head? {l : List Char} {x : Char} (h : l.head? = some x) :
    x ∈ l := by
  cases l with
  | nil => simp at h
  | cons a r =>
    rw [List.head?_cons, Option.some_inj] at h
    subst h
    exact List.mem_cons_self _ _

theorem cleanBase_head {l : List Char} {x : Char}
    (h : (cleanBase l).head? = some x) : isAsciiAlnum x = true := by
  have hmem : x ∈ cleanBase l := mem_of_head? h
  have htrim : isTrimEdgeChar x = false := by
    unfold cleanBase at h
    have hpre := head?_of_isPrefixOf (dropTrailing_isPrefixOf _ _) h
    exact head_dropWhile_not hpre
  exact alnum_of_cleanBaseChar_not_trim (mem_cleanBase hmem) htrim

theorem mem_of_getLast? {l : List Char} {x : Char}
    (h : l.getLast? = some x) : x ∈ l := by
  rw [← List.head?_reverse] at h
  have h2 := mem_of_head? h
  rwa [List.mem_reverse] at h2

theorem cleanBase_last {l : List Char} {x : Char}
    (h : (cleanBase l).getLast? = some x) : isAsciiAlnum x = true := by
  have hmem : x ∈ cleanBase l := mem_of_getLast? h
  have htrim : isTrimEdgeChar x = false := dropTrailing_getLast h
  exact alnum_of_cleanBaseChar_not_trim (mem_cleanBase hmem) htrim

theorem cleanBase_adjPair (l : List Char) :
    adjPair (· == '_') (cleanBase l) = false := by
  unfold cleanBase
  refine adjPair_prefix (dropTrailing_isPrefixOf _ _) ?_
  refine adjPair_suffix (List.dropWhile_suffix _) ?_
  exact collapseRuns_adjPair (by decide) _

/-! ### `baseBeforeReserved` / `baseAfterReserved` invariants -/

theorem baseBefore_props (s : String) :
    baseBeforeReserved s ≠ [] ∧
    (∀ c ∈ baseBeforeReserved s, isCleanBaseChar c = true) ∧
    (∀ x, (baseBeforeReserved s).head? = some x → isAsciiAlnum x = true) ∧
    (∀ x, (baseBeforeReserved s).getLast? = some x → isAsciiAlnum x = true) ∧
    adjPair (· == '_') (baseBeforeReserved s) = false := by
  unfold baseBeforeReserved
  by_cases h2 : cleanBase (baseInput s) = []
  · rw [if_pos h2]
    exact ⟨by decide, by decide, by decide, by decide, by decide⟩
  · rw [if_neg h2]
    exact ⟨h2, fun c hc => mem_cleanBase hc, fun x hx => cleanBase_head hx,
      fun x hx => cleanBase_last hx, cleanBase_adjPair _⟩

theorem reserved_short {x : String} (h : reservedNames.contains x = true) :
    x.length ≤ 4 := by
  rw [List.elem_iff] at h
  simp only [reservedNames, List.mem_cons, List.not_mem_nil, or_false] at h
  rcases h with rfl | rfl | rfl | rfl | rfl | rfl | rfl | rfl | rfl | rfl |
    rfl | rfl | rfl | rfl | rfl | rfl | rfl | rfl | rfl | rfl | rfl | rfl <;>
    decide

theorem not_reserved_of_long {l : List Char} (h : 4 < l.length) :
    reservedNames.contains (String.mk l) = false := by
  rw [Bool.eq_false_iff]
  intro hc
  have h2 := reserved_short hc
  have h3 : (String.mk l).length = l.length := rfl
  omega

theorem head?_append_left {l m : List Char} (h : l ≠ []) :
    (l ++ m).head? = l.head? := by
  cases l with
  | nil => exact absurd rfl h
  | cons a r => rfl

theorem getLast?_append_right {l m : List Char} (h : m ≠ []) :
    (l ++ m).getLast? = m.getLast? := by
  rw [List.getLast?_append]
  cases hm : m.getLast? with
  | none => exact absurd (List.getLast?_eq_none_iff.mp hm) h
  | some a => rfl

theorem alnum_not_underscore {c : Char} (h : isAsciiAlnum c = true) :
    (c == '_') = false := by
  have h95 : ('_' : Char).toNat = 95 := rfl
  simp only [isAsciiAlnum, isAsciiLetter, isAsciiDigit, Bool.or_eq_true,
    Bool.and_eq_true, decide_eq_true_eq] at h
  rw [Bool.eq_false_iff]
  intro hb
  rw [char_beq_iff_toNat, h95] at hb
  omega

theorem baseAfter_props (s : String) :
    baseAfterReserved s ≠ [] ∧
    (∀ c ∈ baseAfterReserved s, isCleanBaseChar c = true) ∧
    (∀ x, (baseAfterReserved s).head? = some x → isAsciiAlnum x = true) ∧
    (∀ x, (baseAfterReserved s).getLast? = some x → isAsciiAlnum x = true) ∧
    adjPair (· == '_') (baseAfterReserved s) = false ∧
    reservedNames.contains
      (String.mk ((baseAfterReserved s).map jsToUpperAscii)) = false := by
  obtain ⟨hne, hmem, hhead, hlast, hadj⟩ := baseBefore_props s
  unfold baseAfterReserved
  by_cases hres : reservedNames.contains
      (String.mk ((baseBeforeReserved s).map jsToUpperAscii)) = true
  · rw [if_pos hres]
    refine ⟨by simp, ?_, ?_, ?_, ?_, ?_⟩
    · intro c hc
      rcases List.mem_append.mp hc with h | h
      · exact hmem c h
      · have hall : ∀ c ∈ ("_file".data), isCleanBaseChar c = true := by decide
        exact hall c h
    · intro x hx
      rw [head?_append_left hne] at hx
      exact hhead x hx
    · intro x hx
      rw [getLast?_append_right (by decide)] at hx
      rw [show ("_file".data).getLast? = some 'e' from rfl,
        Option.some_inj] at hx
      subst hx
      decide
    · refine adjPair_append hadj (by decide) ?_
      intro x y hx hy
      rw [alnum_not_underscore (hlast x hx)]
      exact Bool.false_and _
    · apply not_reserved_of_long
      rw [List.length_map, List.length_append,
        show ("_file".data).length = 5 from rfl]
      omega
  · rw [if_neg hres]
    exact ⟨hne, hmem, hhead, hlast, hadj, Bool.eq_false_iff.mpr hres⟩

/-! ### Identity of the cleaning pipeline on already-clean input -/

theorem cleanBaseChar_ascii {c : Char} (h : isCleanBaseChar c = true) :
    c.toNat ≤ 127 :=
  (cleanBaseChar_resolve h).2.2.2.2.2.2.1

theorem nfdChar_ascii {c : Char} (h : c.toNat ≤ 127) : nfdChar c = [c] := by
  unfold nfdChar
  rw [if_pos (by omega)]

theorem nfdAll_ascii {l : List Char} (h : ∀ c ∈ l, c.toNat ≤ 127) :
    nfdAll l = l := by
  induction l with
  | nil => rfl
  | cons a r ih =>
    have ih2 : nfdAll r = r :=
      ih (fun c hc => h c (List.mem_cons_of_mem _ hc))
    show (List.map nfdChar (a :: r)).flatten = a :: r
    rw [List.map_cons, List.flatten_cons,
      nfdChar_ascii (h a (List.mem_cons_self _ _)), List.singleton_append]
    show a :: nfdAll r = a :: r
    rw [ih2]

theorem alnum_not_trim {c : Char} (h : isAsciiAlnum c = true) :
    isTrimEdgeChar c = false := by
  simp only [isAsciiAlnum, isAsciiLetter, isAsciiDigit, isTrimEdgeChar,
    Bool.or_eq_true, Bool.and_eq_true, Bool.or_eq_false_iff, beq_iff_eq,
    beq_eq_false_iff_ne, ne_eq, decide_eq_true_eq] at h ⊢
  omega

theorem preClean_id {l : List Char}
    (hmem : ∀ c ∈ l, isCleanBaseChar c = true) : preClean l = l := by
  unfold preClean
  rw [nfdAll_ascii (fun c hc => cleanBaseChar_ascii (hmem c hc))]
  rw [show stripDiacritics l = l from List.filter_eq_self.mpr
    (fun c hc => (cleanBaseChar_resolve (hmem c hc)).2.2.2.2.2.2.2.1)]
  rw [show stripNonAscii l = l from List.filter_eq_self.mpr
    (fun c hc => decide_eq_true (cleanBaseChar_ascii (hmem c hc)))]
  rw [show collapseRuns isJsWhitespaceChar '_' l = l from
    collapseRunsGo_eq_self (fun c hc => (cleanBaseChar_resolve (hmem c hc)).1)]
  rw [show collapseRuns isPlusMinusWs '_' l = l from
    collapseRunsGo_eq_self (fun c hc => (cleanBaseChar_resolve (hmem c hc)).2.1)]
  rw [show List.filter (fun c => !isFsReservedChar c) l = l from
    List.filter_eq_self.mpr (fun c hc => by
      rw [(cleanBaseChar_resolve (hmem c hc)).2.2.1]; rfl)]
  rw [show List.filter (fun c => !isShellChar c) l = l from
    List.filter_eq_self.mpr (fun c hc => by
      rw [(cleanBaseChar_resolve (hmem c hc)).2.2.2.1]; rfl)]
  rw [show List.filter (fun c => !isMiscChar c) l = l from
    List.filter_eq_self.mpr (fun c hc => by
      rw [(cleanBaseChar_resolve (hmem c hc)).2.2.2.2.1]; rfl)]
  rw [show List.filter isBaseKeepChar l = l from
    List.filter_eq_self.mpr
      (fun c hc => (cleanBaseChar_resolve (hmem c hc)).2.2.2.2.2.1)]

theorem cleanBase_id {l : List Char}
    (hmem : ∀ c ∈ l, isCleanBaseChar c = true)
    (hhead : ∀ x, l.head? = some x → isAsciiAlnum x = true)
    (hlast : ∀ x, l.getLast? = some x → isAsciiAlnum x = true)
    (hadj : adjPair (· == '_') l = false) :
    cleanBase l = l := by
  unfold cleanBase
  rw [preClean_id hmem]
  rw [show collapseRuns (· == '_') '_' l = l from
    collapseRunsGo_id hadj (fun x _ hpx => beq_iff_eq.mp hpx)
      (fun h => nomatch h)]
  rw [dropWhile_eq_self_of_head
    (fun x hx => alnum_not_trim (hhead x hx))]
  exact dropTrailing_eq_self (fun x hx => alnum_not_trim (hlast x hx))

/-! ### `jsTrim` lemmas -/

theorem jsTrim_eq_self {l : List Char}
    (h : ∀ c ∈ l, isJsWhitespaceChar c = false) :
    jsTrim (String.mk l) = String.mk l := by
  unfold jsTrim
  rw [show (String.mk l).data = l from rfl]
  rw [dropWhile_eq_self_of_head (fun x hx => h x (mem_of_head? hx)),
    dropTrailing_eq_self (fun x hx => h x (mem_of_getLast? hx))]

theorem jsTrim_ne_empty {l : List Char} {a : Char} (hhead : l.head? = some a)
    (ha : isJsWhitespaceChar a = false) : jsTrim (String.mk l) ≠ "" := by
  unfold jsTrim
  rw [show (String.mk l).data = l from rfl]
  rw [dropWhile_eq_self_of_head (fun x hx => by
    rw [hx, Option.some_inj] at hhead
    rwa [hhead])]
  intro hcontra
  have hdata : dropTrailing isJsWhitespaceChar l = [] :=
    congrArg String.data hcontra
  unfold dropTrailing at hdata
  have hrev : l.reverse.dropWhile isJsWhitespaceChar = [] := by
    have := congrArg List.reverse hdata
    rwa [List.reverse_reverse, List.reverse_nil] at this
  have hall := List.dropWhile_eq_nil_iff.mp hrev
  have hmem : a ∈ l.reverse := List.mem_reverse.mpr (mem_of_head? hhead)
  rw [hall a hmem] at ha
  exact Bool.noConfusion ha

/-! ### `pathExtname` / `cleanExtChars` shape lemmas -/

theorem bne_dot_false {y : Char} (h : (y != '.') = false) : y = '.' := by
  rw [bne, Bool.not_eq_false'] at h
  exact beq_iff_eq.mp h

theorem lastDot_shape {p : List Char}
    (h : (p.reverse.takeWhile (· != '.')).length ≠ p.length) :
    p.drop (p.length - (p.reverse.takeWhile (· != '.')).length - 1) =
      '.' :: (p.reverse.takeWhile (· != '.')).reverse := by
  have hsplit := List.takeWhile_append_dropWhile (p := (· != '.'))
    (l := p.reverse)
  cases hrest : p.reverse.dropWhile (· != '.') with
  | nil =>
    exfalso
    have h0 := congrArg List.length hsplit
    rw [List.length_append, hrest, List.length_reverse] at h0
    simp at h0
    omega
  | cons y rest' =>
    have hy : y = '.' := by
      refine bne_dot_false
        (head_dropWhile_not (p := (· != '.')) (l := p.reverse) ?_)
      rw [hrest]
      rfl
    subst hy
    have hp : p = rest'.reverse ++ '.' :: (p.reverse.takeWhile (· != '.')).reverse := by
      have h2 := congrArg List.reverse hsplit
      rw [List.reverse_reverse, hrest, List.reverse_append,
        List.reverse_cons, List.append_assoc, List.singleton_append] at h2
      exact h2.symm
    have hlen2 : rest'.reverse.length =
        p.length - (p.reverse.takeWhile (· != '.')).length - 1 := by
      have := congrArg List.length hsplit
      rw [List.length_append, hrest, List.length_reverse,
        List.length_cons] at this
      rw [List.length_reverse]
      omega
    calc p.drop (p.length - (p.reverse.takeWhile (· != '.')).length - 1)
        = (rest'.reverse ++ '.' :: (p.reverse.takeWhile (· != '.')).reverse).drop
            rest'.reverse.length := by rw [← hp, hlen2]
      _ = '.' :: (p.reverse.takeWhile (· != '.')).reverse :=
          List.drop_left _ _

theorem extnamePortion_shape (p : List Char) :
    extnamePortion p = [] ∨
    ∃ u, extnamePortion p = '.' :: u ∧ ∀ c ∈ u, c ≠ '.' := by
  by_cases h1 : (p.reverse.takeWhile (· != '.')).length = p.length
  · refine Or.inl ?_
    simp only [extnamePortion]
    rw [if_pos h1]
  · by_cases h2 : p.length - (p.reverse.takeWhile (· != '.')).length - 1 = 0
    · refine Or.inl ?_
      simp only [extnamePortion]
      rw [if_neg h1, if_pos h2]
    · by_cases h3 : p = ['.', '.']
      · refine Or.inl ?_
        simp only [extnamePortion]
        rw [if_neg h1, if_neg h2, if_pos h3]
      · refine Or.inr ?_
        refine ⟨(p.reverse.takeWhile (· != '.')).reverse, ?_, ?_⟩
        · simp only [extnamePortion]
          rw [if_neg h1, if_neg h2, if_neg h3]
          exact lastDot_shape h1
        · intro c hc
          rw [List.mem_reverse] at hc
          have h4 := List.mem_takeWhile_imp hc
          intro hcd
          subst hcd
          simp [bne] at h4

theorem pathExtname_shape (s : String) :
    pathExtname s = "" ∨
    ∃ u, (pathExtname s).data = '.' :: u ∧ ∀ c ∈ u, c ≠ '.' := by
  rcases extnamePortion_shape (lastPortion s.data) with h | ⟨u, h, hu⟩
  · refine Or.inl ?_
    unfold pathExtname
    rw [h]
  · refine Or.inr ⟨u, ?_, hu⟩
    unfold pathExtname
    rw [show (String.mk (extnamePortion (lastPortion s.data))).data =
      extnamePortion (lastPortion s.data) from rfl, h]

/-! ### `jsToLowerAscii` lemmas -/

theorem jsToLowerAscii_toNat (c : Char) :
    (jsToLowerAscii c).toNat =
      if 65 ≤ c.toNat ∧ c.toNat ≤ 90 then c.toNat + 32 else c.toNat := by
  simp only [jsToLowerAscii]
  by_cases h : 65 ≤ c.toNat ∧ c.toNat ≤ 90
  · rw [if_pos (by simp only [Bool.and_eq_true, decide_eq_true_eq]; exact h),
      if_pos h]
    exact toNat_charOfNat (by omega)
  · rw [if_neg (by simp only [Bool.and_eq_true, decide_eq_true_eq]; exact h),
      if_neg h]

theorem toLower_alnum {c : Char} (h : isAsciiAlnum c = true) :
    isAsciiAlnum (jsToLowerAscii c) = true ∧
    jsToLowerAscii (jsToLowerAscii c) = jsToLowerAscii c ∧
    (jsToLowerAscii c == '.') = false ∧ jsToLowerAscii c ≠ '.' := by
  simp only [isAsciiAlnum, isAsciiLetter, isAsciiDigit, Bool.or_eq_true,
    Bool.and_eq_true, decide_eq_true_eq] at h
  have ht := jsToLowerAscii_toNat c
  have ht2 := jsToLowerAscii_toNat (jsToLowerAscii c)
  have hdot : ('.' : Char).toNat = 46 := rfl
  refine ⟨?_, ?_, ?_, ?_⟩
  · simp only [isAsciiAlnum, isAsciiLetter, isAsciiDigit, Bool.or_eq_true,
      Bool.and_eq_true, decide_eq_true_eq]
    rw [ht]
    split <;> omega
  · have hm : ¬(65 ≤ (jsToLowerAscii c).toNat ∧
        (jsToLowerAscii c).toNat ≤ 90) := by
      rw [ht]
      split <;> omega
    rw [char_eq_iff_toNat, ht2, if_neg hm]
  · rw [Bool.eq_false_iff]
    intro hb
    rw [char_beq_iff_toNat, hdot, ht] at hb
    revert hb
    split <;> omega
  · rw [Ne, char_eq_iff_toNat, ht, hdot]
    split <;> omega

theorem toLower_dot : jsToLowerAscii '.' = '.' := by decide

/-! ### `cleanExtChars` shape -/

theorem cleanExtChars_shape (s : String) :
    (pathExtname s = "" ∧ cleanExtChars (pathExtname s) = []) ∨
    ∃ t, cleanExtChars (pathExtname s) = '.' :: t ∧
      ∀ c ∈ t, isAsciiAlnum c = true ∧ jsToLowerAscii c = c ∧ c ≠ '.' := by
  rcases pathExtname_shape s with h | ⟨u, hdata, hu⟩
  · exact Or.inl ⟨h, by rw [h]; rfl⟩
  · refine Or.inr ?_
    have hne : (pathExtname s == "") = false := by
      rw [beq_eq_false_iff_ne]
      intro hcontra
      rw [hcontra] at hdata
      exact List.noConfusion hdata
    have hfilter : (pathExtname s).data.filter
        (fun c => isAsciiAlnum c || c == '.') =
        '.' :: u.filter (fun c => isAsciiAlnum c || c == '.') := by
      rw [hdata, List.filter_cons_of_pos (by decide)]
    have hmap : ((pathExtname s).data.filter
        (fun c => isAsciiAlnum c || c == '.')).map jsToLowerAscii =
        '.' :: (u.filter (fun c => isAsciiAlnum c || c == '.')).map
          jsToLowerAscii := by
      rw [hfilter, List.map_cons, toLower_dot]
    refine ⟨(u.filter (fun c => isAsciiAlnum c || c == '.')).map jsToLowerAscii,
      ?_, ?_⟩
    · unfold cleanExtChars
      rw [if_neg (by rw [hne]; exact fun hcontra => Bool.noConfusion hcontra)]
      rw [hmap]
      rw [if_neg (fun hcontra => List.noConfusion hcontra)]
      simp
    · intro c hc
      rw [List.mem_map] at hc
      obtain ⟨c', hc', rfl⟩ := hc
      rw [List.mem_filter] at hc'
      obtain ⟨hmem', hkeep'⟩ := hc'
      have halnum' : isAsciiAlnum c' = true := by
        rcases (by simpa using hkeep' :
            isAsciiAlnum c' = true ∨ c' = '.') with h' | h'
        · exact h'
        · exact absurd h' (hu c' hmem')
      obtain ⟨h1, h2, _, h4⟩ := toLower_alnum halnum'
      exact ⟨h1, h2, h4⟩

/-! ### Assembled form of `sanitizeFilenameSafe` -/

theorem take200_ne_nil {l : List Char} (h : l ≠ []) : l.take 200 ≠ [] := by
  rw [Ne, List.take_eq_nil_iff]
  rintro (h200 | rfl)
  · omega
  · exact h rfl

theorem sanitizeFilenameSafe_data (s : String) (hs : s ≠ "") :
    (sanitizeFilenameSafe s).data =
      (baseAfterReserved s).take 200 ++ cleanExtChars (pathExtname s) := by
  have hbeq : (s == "") = false := beq_eq_false_iff_ne.mpr hs
  have hbase := (baseAfter_props s).1
  have hne : (baseAfterReserved s).take 200 ≠ [] := take200_ne_nil hbase
  have hcond : ¬((baseAfterReserved s).take 200 ++
        cleanExtChars (pathExtname s) = [] ∨
      (baseAfterReserved s).take 200 ++ cleanExtChars (pathExtname s) =
        cleanExtChars (pathExtname s)) := by
    rintro (h | h)
    · exact hne (List.append_eq_nil.mp h).1
    · have hlen := congrArg List.length h
      rw [List.length_append] at hlen
      exact hne (List.eq_nil_of_length_eq_zero (by omega))
  unfold sanitizeFilenameSafe
  rw [if_neg (by rw [hbeq]; exact fun hcontra => Bool.noConfusion hcontra),
    if_neg hcond]

theorem sanitize_ne_empty (s : String) : sanitizeFilenameSafe s ≠ "" := by
  by_cases hs : s = ""
  · subst hs
    decide
  · intro hcontra
    have hdata := congrArg String.data hcontra
    rw [sanitizeFilenameSafe_data s hs] at hdata
    have := (List.append_eq_nil.mp hdata).1
    exact take200_ne_nil (baseAfter_props s).1 this

theorem claimAllowed_of_cleanBaseChar {c : Char}
    (h : isCleanBaseChar c = true) : isClaimAllowedChar c = true :=
  (cleanBaseChar_resolve h).2.2.2.2.2.2.2.2.2

theorem claimAllowed_of_alnum {c : Char} (h : isAsciiAlnum c = true) :
    isClaimAllowedChar c = true := by
  simp only [isClaimAllowedChar, Bool.or_eq_true]
  exact Or.inl (Or.inl (Or.inl h))

/-! ### C7: totality, character set and reserved names -/

/-- C7: for every input (including non-string inputs, modelled as `none`, and
the empty string) the sanitizer returns without failing a non-empty name all
of whose characters lie in `[A-Za-z0-9._-]`; and whenever the cleaned base
case-insensitively matches a reserved device name (CON, PRN, AUX, NUL,
COM1-9, LPT1-9), the suffix `_file` is appended, after which the base no
longer matches any reserved name. -/
theorem sanitizer_total_and_reserved :
    (∀ s : Option String, sanitizeAnyInput s ≠ "" ∧
      ∀ c ∈ (sanitizeAnyInput s).data, isClaimAllowedChar c = true) ∧
    (∀ s : String,
      reservedNames.contains
        (String.mk ((baseBeforeReserved s).map jsToUpperAscii)) = true →
      baseAfterReserved s = baseBeforeReserved s ++ "_file".data ∧
      reservedNames.contains
        (String.mk ((baseAfterReserved s).map jsToUpperAscii)) = false) := by
  constructor
  · rintro (_ | s)
    · exact ⟨by decide, by decide⟩
    · refine ⟨sanitize_ne_empty s, ?_⟩
      by_cases hs : s = ""
      · subst hs
        intro c hc
        have hdata : (sanitizeAnyInput (some "")).data = "unnamed_file".data :=
          by decide
        rw [hdata] at hc
        have hall : ∀ c ∈ ("unnamed_file".data), isClaimAllowedChar c = true :=
          by decide
        exact hall c hc
      · intro c hc
        rw [show sanitizeAnyInput (some s) = sanitizeFilenameSafe s from rfl,
          sanitizeFilenameSafe_data s hs] at hc
        rcases List.mem_append.mp hc with h | h
        · exact claimAllowed_of_cleanBaseChar
            ((baseAfter_props s).2.1 c (List.take_subset _ _ h))
        · rcases cleanExtChars_shape s with ⟨_, hnil⟩ | ⟨t, hext, ht⟩
          · rw [hnil] at h
            cases h
          · rw [hext] at h
            rcases List.mem_cons.mp h with rfl | h
            · decide
            · exact claimAllowed_of_alnum (ht c h).1
  · intro s hres
    constructor
    · unfold baseAfterReserved
      rw [if_pos hres]
    · exact (baseAfter_props s).2.2.2.2.2

/-- Witness for `sanitizer_total_and_reserved` at an input whose base is the
reserved device name `CON`. -/
theorem sanitizer_total_and_reserved_witness :
    sanitizeAnyInput (some "con.txt") ≠ "" ∧
    baseAfterReserved "con.txt" =
      baseBeforeReserved "con.txt" ++ "_file".data ∧
    reservedNames.contains
      (String.mk ((baseAfterReserved "con.txt").map jsToUpperAscii)) = false :=
  ⟨(sanitizer_total_and_reserved.1 (some "con.txt")).1,
   (sanitizer_total_and_reserved.2 "con.txt" (by decide)).1,
   (sanitizer_total_and_reserved.2 "con.txt" (by decide)).2⟩

/-! ### C3: blank rename names are rejected before any syscall -/

/-- C3: a rename request whose body field is missing or non-string
(`none`), or whose new name is blank after trimming or sanitizes to the
empty string (which in fact never happens, the sanitizer being total), is
answered 400 with an empty syscall trace, and the file-system snapshot is
unchanged. -/
theorem rename_blank_rejected (uploadDir param : String) (fsys : Fsys) :
    renameRoute uploadDir param none fsys = ([], HttpStatus.badRequest) ∧
    ∀ s : String, (jsTrim s = "" ∨ sanitizeFilenameSafe (jsTrim s) = "") →
      renameRoute uploadDir param (some s) fsys =
        ([], HttpStatus.badRequest) ∧
      applyOps fsys (renameRoute uploadDir param (some s) fsys).1 = fsys := by
  refine ⟨rfl, ?_⟩
  intro s hs
  have htrim : jsTrim s = "" := by
    rcases hs with h | h
    · exact h
    · exact absurd h (sanitize_ne_empty _)
  have hroute : renameRoute uploadDir param (some s) fsys =
      ([], HttpStatus.badRequest) := by
    have hcond : (s == "" || jsTrim s == "") = true := by
      rw [(beq_iff_eq.mpr htrim : (jsTrim s == "") = true), Bool.or_true]
    simp only [renameRoute]
    rw [if_pos hcond]
  exact ⟨hroute, by rw [hroute]; rfl⟩

/-- Witness for `rename_blank_rejected`: a whitespace-only new name. -/
theorem rename_blank_rejected_witness :
    (jsTrim "   " = "" ∨ sanitizeFilenameSafe (jsTrim "   ") = "") ∧
    renameRoute "/data/uploads" "a.txt" (some "   ") emptyFsys =
      ([], HttpStatus.badRequest) ∧
    applyOps emptyFsys
      (renameRoute "/data/uploads" "a.txt" (some "   ") emptyFsys).1 =
      emptyFsys :=
  ⟨Or.inl (by decide),
   ((rename_blank_rejected "/data/uploads" "a.txt" emptyFsys).2 "   "
     (Or.inl (by decide))).1,
   ((rename_blank_rejected "/data/uploads" "a.txt" emptyFsys).2 "   "
     (Or.inl (by decide))).2⟩

/-! ### Dots in cleaned bases trace back to dots in the input -/

theorem nfdChar_dot {c : Char} (h : ('.' : Char) ∈ nfdChar c) : c = '.' := by
  unfold nfdChar at h
  by_cases hc : c.toNat < 128
  · rw [if_pos hc] at h
    exact (List.mem_singleton.mp h).symm
  · rw [if_neg hc] at h
    exfalso
    revert h
    split
    any_goals decide
    intro h
    have hcd : c = '.' := (List.mem_singleton.mp h).symm
    subst hcd
    exact hc (by decide)

theorem mem_dot_nfdAll {l : List Char} (h : ('.' : Char) ∈ nfdAll l) :
    ('.' : Char) ∈ l := by
  unfold nfdAll at h
  rw [List.mem_flatten] at h
  obtain ⟨gl, hgl, hdot⟩ := h
  rw [List.mem_map] at hgl
  obtain ⟨c, hc, rfl⟩ := hgl
  exact nfdChar_dot hdot ▸ hc

theorem dot_mem_preClean {l : List Char} (h : ('.' : Char) ∈ preClean l) :
    ('.' : Char) ∈ l := by
  unfold preClean at h
  have h1 := (List.mem_filter.mp h).1
  have h2 := (List.mem_filter.mp h1).1
  have h3 := (List.mem_filter.mp h2).1
  have h4 := (List.mem_filter.mp h3).1
  rcases collapseRuns_mem h4 with heq | ⟨h5, _⟩
  · exact absurd heq (by decide)
  rcases collapseRuns_mem h5 with heq | ⟨h6, _⟩
  · exact absurd heq (by decide)
  have h7 := (List.mem_filter.mp h6).1
  have h8 := (List.mem_filter.mp h7).1
  exact mem_dot_nfdAll h8

theorem dot_mem_cleanBase {l : List Char} (h : ('.' : Char) ∈ cleanBase l) :
    ('.' : Char) ∈ l := by
  unfold cleanBase at h
  have h1 := dropTrailing_mem h
  have h2 := (List.dropWhile_sublist (p := isTrimEdgeChar)).subset h1
  rcases collapseRuns_mem h2 with heq | ⟨h3, _⟩
  · exact absurd heq (by decide)
  · exact dot_mem_preClean h3

/-! ### The cleaning pipeline commutes with a leading dot -/

theorem collapseRuns_cons_neg {p : Char → Bool} {c a : Char} {l : List Char}
    (ha : p a = false) :
    collapseRuns p c (a :: l) = a :: collapseRuns p c l := by
  show collapseRunsGo p c (a :: l) false = a :: collapseRunsGo p c l false
  simp only [collapseRunsGo]
  rw [ha]
  simp

theorem preClean_cons_dot (v : List Char) :
    preClean ('.' :: v) = '.' :: preClean v := by
  unfold preClean
  rw [show nfdAll ('.' :: v) = '.' :: nfdAll v from by
    unfold nfdAll
    rw [List.map_cons, List.flatten_cons,
      show nfdChar '.' = ['.'] from by decide, List.singleton_append]]
  rw [show stripDiacritics ('.' :: nfdAll v) = '.' :: stripDiacritics (nfdAll v)
    from List.filter_cons_of_pos (by decide)]
  rw [show stripNonAscii ('.' :: stripDiacritics (nfdAll v)) =
      '.' :: stripNonAscii (stripDiacritics (nfdAll v))
    from List.filter_cons_of_pos (by decide)]
  rw [collapseRuns_cons_neg (by decide)]
  rw [collapseRuns_cons_neg (by decide)]
  rw [List.filter_cons_of_pos (by decide)]
  rw [List.filter_cons_of_pos (by decide)]
  rw [List.filter_cons_of_pos (by decide)]
  rw [List.filter_cons_of_pos (by decide)]

theorem cleanBase_cons_dot (v : List Char) :
    cleanBase ('.' :: v) = cleanBase v := by
  unfold cleanBase
  rw [preClean_cons_dot, collapseRuns_cons_neg (by decide),
    List.dropWhile_cons]
  rw [if_pos (by decide)]

/-! ### Shape analysis of an empty extension -/

theorem takeWhile_eq_of_length {p : Char → Bool} {l : List Char}
    (h : (l.takeWhile p).length = l.length) : l.takeWhile p = l :=
  List.IsPrefix.eq_of_length (List.takeWhile_prefix p) h

theorem extnamePortion_eq_nil_cases {p : List Char}
    (h : extnamePortion p = []) :
    (∀ c ∈ p, c ≠ '.') ∨ (∃ v, p = '.' :: v ∧ ∀ c ∈ v, c ≠ '.') ∨
      p = ['.', '.'] := by
  by_cases h1 : (p.reverse.takeWhile (· != '.')).length = p.length
  · refine Or.inl ?_
    have heq : p.reverse.takeWhile (· != '.') = p.reverse :=
      takeWhile_eq_of_length (by rw [h1, List.length_reverse])
    intro c hc hcd
    subst hcd
    have hmem : ('.' : Char) ∈ p.reverse.takeWhile (· != '.') := by
      rw [heq, List.mem_reverse]
      exact hc
    have h4 := List.mem_takeWhile_imp hmem
    simp [bne] at h4
  · by_cases h2 : p.length - (p.reverse.takeWhile (· != '.')).length - 1 = 0
    · have hdrop := lastDot_shape h1
      rw [h2, List.drop_zero] at hdrop
      refine Or.inr (Or.inl
        ⟨(p.reverse.takeWhile (· != '.')).reverse, hdrop, ?_⟩)
      intro c hc hcd
      subst hcd
      rw [List.mem_reverse] at hc
      have h4 := List.mem_takeWhile_imp hc
      simp [bne] at h4
    · by_cases h3 : p = ['.', '.']
      · exact Or.inr (Or.inr h3)
      · exfalso
        have hval : extnamePortion p =
            '.' :: (p.reverse.takeWhile (· != '.')).reverse := by
          simp only [extnamePortion]
          rw [if_neg h1, if_neg h2, if_neg h3]
          exact lastDot_shape h1
        rw [h] at hval
        exact List.noConfusion hval

theorem pathBasename_empty_ext (s : String) :
    (pathBasename s "").data = lastPortion s.data := by
  unfold pathBasename
  by_cases hp : lastPortion s.data = []
  · have hcond : ¬(("" : String).data.isSuffixOf (lastPortion s.data) = true ∧
        lastPortion s.data ≠ ("" : String).data) := by
      rintro ⟨_, hne⟩
      exact hne (by rw [hp])
    rw [if_neg hcond]
  · rw [if_pos ⟨List.isSuffixOf_iff_suffix.mpr List.nil_suffix, hp⟩]
    show ((lastPortion s.data).take
      ((lastPortion s.data).length - ("" : String).data.length)) = _
    rw [show ("" : String).data.length = 0 from rfl, Nat.sub_zero,
      List.take_length]

theorem baseAfterReserved_no_dot (s : String) (hext : pathExtname s = "") :
    ∀ c ∈ baseAfterReserved s, c ≠ '.' := by
  have hport : extnamePortion (lastPortion s.data) = [] :=
    congrArg String.data hext
  have hb0 : (pathBasename s (pathExtname s)).data = lastPortion s.data := by
    rw [hext]
    exact pathBasename_empty_ext s
  have hnodot3 : ('.' : Char) ∉ baseBeforeReserved s := by
    unfold baseBeforeReserved
    by_cases h2 : cleanBase (baseInput s) = []
    · rw [if_pos h2]
      decide
    · rw [if_neg h2]
      intro hdot
      rcases extnamePortion_eq_nil_cases hport with hca | ⟨v, hcb, hv⟩ | hcc
      · unfold baseInput at hdot
        split at hdot
        · exact absurd (dot_mem_cleanBase hdot) (by decide)
        · have h4 := dot_mem_cleanBase hdot
          rw [hb0] at h4
          exact hca '.' h4 rfl
      · unfold baseInput at hdot
        split at hdot
        · exact absurd (dot_mem_cleanBase hdot) (by decide)
        · rw [hb0, hcb, cleanBase_cons_dot] at hdot
          exact hv '.' (dot_mem_cleanBase hdot) rfl
      · unfold baseInput at hdot
        split at hdot
        · exact absurd (dot_mem_cleanBase hdot) (by decide)
        · rw [hb0, hcc, show cleanBase ['.', '.'] = [] from by decide] at hdot
          cases hdot
  intro c hc hcd
  subst hcd
  revert hc
  unfold baseAfterReserved
  by_cases hres : reservedNames.contains
      (String.mk ((baseBeforeReserved s).map jsToUpperAscii)) = true
  · rw [if_pos hres]
    intro hc
    rcases List.mem_append.mp hc with h | h
    · exact hnodot3 h
    · revert h
      decide
  · rw [if_neg hres]
    exact hnodot3

/-! ### Path-function reconstruction for the second sanitization pass -/

theorem alnum_resolve {c : Char} (h : isAsciiAlnum c = true) :
    c ≠ '.' ∧ (c == '/') = false := by
  simp only [isAsciiAlnum, isAsciiLetter, isAsciiDigit, Bool.or_eq_true,
    Bool.and_eq_true, decide_eq_true_eq] at h
  constructor
  · rw [Ne, char_eq_iff_toNat, show ('.' : Char).toNat = 46 from rfl]
    omega
  · rw [Bool.eq_false_iff]
    intro hb
    rw [char_beq_iff_toNat, show ('/' : Char).toNat = 47 from rfl] at hb
    omega

theorem lastPortion_no_slash {l : List Char}
    (h : ∀ c ∈ l, (c == '/') = false) : lastPortion l = l := by
  unfold lastPortion
  rw [dropTrailing_eq_self (fun x hx => h x (mem_of_getLast? hx))]
  rw [List.takeWhile_eq_self_iff.mpr ?_, List.reverse_reverse]
  intro x hx
  rw [List.mem_reverse] at hx
  show (!(x == '/')) = true
  rw [h x hx]
  rfl

theorem extnamePortion_no_dot {p : List Char} (h : ∀ c ∈ p, c ≠ '.') :
    extnamePortion p = [] := by
  have hlen : (p.reverse.takeWhile (· != '.')).length = p.length := by
    rw [List.takeWhile_eq_self_iff.mpr (fun x hx => by
      rw [List.mem_reverse] at hx
      show (!(x == '.')) = true
      rw [beq_eq_false_iff_ne.mpr (h x hx)]
      rfl)]
    exact List.length_reverse _
  simp only [extnamePortion]
  rw [if_pos hlen]

theorem extnamePortion_append_ext {B t : List Char} (hB : B ≠ [])
    (hBhead : ∀ x, B.head? = some x → x ≠ '.')
    (ht : ∀ c ∈ t, c ≠ '.') :
    extnamePortion (B ++ '.' :: t) = '.' :: t := by
  have hrev : (B ++ '.' :: t).reverse = t.reverse ++ '.' :: B.reverse := by
    rw [List.reverse_append, List.reverse_cons, List.append_assoc,
      List.singleton_append]
  have hrts : (B ++ '.' :: t).reverse.takeWhile (· != '.') = t.reverse := by
    rw [hrev, List.takeWhile_append]
    rw [List.takeWhile_eq_self_iff.mpr (fun x hx => by
      rw [List.mem_reverse] at hx
      show (!(x == '.')) = true
      rw [beq_eq_false_iff_ne.mpr (ht x hx)]
      rfl)]
    rw [if_pos rfl]
    rw [show List.takeWhile (· != '.') ('.' :: B.reverse) = [] from by
      rw [List.takeWhile_cons]
      simp]
    rw [List.append_nil]
  have hlen1 : (B ++ '.' :: t).length = B.length + 1 + t.length := by
    rw [List.length_append, List.length_cons]
    omega
  have hBlen : 1 ≤ B.length := by
    cases B with
    | nil => exact absurd rfl hB
    | cons _ _ => simp
  have h1 : ((B ++ '.' :: t).reverse.takeWhile (· != '.')).length ≠
      (B ++ '.' :: t).length := by
    rw [hrts, List.length_reverse, hlen1]
    omega
  have h2 : (B ++ '.' :: t).length -
      ((B ++ '.' :: t).reverse.takeWhile (· != '.')).length - 1 ≠ 0 := by
    rw [hrts, List.length_reverse, hlen1]
    omega
  have h3 : B ++ '.' :: t ≠ ['.', '.'] := by
    intro hcontra
    cases B with
    | nil => exact absurd rfl hB
    | cons b B' =>
      have hb : b = '.' := by
        have := congrArg (List.head? ·) hcontra
        simpa using this
      exact hBhead b rfl hb
  simp only [extnamePortion]
  rw [if_neg h1, if_neg h2, if_neg h3]
  have hd : (B ++ '.' :: t).length -
      ((B ++ '.' :: t).reverse.takeWhile (· != '.')).length - 1 = B.length := by
    rw [hrts, List.length_reverse, hlen1]
    omega
  rw [hd]
  exact List.drop_left B ('.' :: t)

theorem pathBasename_strip {B E : List Char} (hB : B ≠ [])
    (hnoslash : ∀ c ∈ B ++ E, (c == '/') = false) :
    pathBasename (String.mk (B ++ E)) (String.mk E) = String.mk B := by
  unfold pathBasename
  rw [show (String.mk (B ++ E)).data = B ++ E from rfl,
    show (String.mk E).data = E from rfl]
  rw [lastPortion_no_slash hnoslash]
  have hlen : (B ++ E).length - E.length = B.length := by
    rw [List.length_append]
    omega
  rw [if_pos ⟨List.isSuffixOf_iff_suffix.mpr ⟨B, rfl⟩, fun hcontra => by
    have := congrArg List.length hcontra
    rw [List.length_append] at this
    exact hB (List.eq_nil_of_length_eq_zero (by omega))⟩]
  rw [hlen, List.take_left]

theorem cleanExtChars_fixed {t : List Char}
    (ht : ∀ c ∈ t, isAsciiAlnum c = true ∧ jsToLowerAscii c = c ∧ c ≠ '.') :
    cleanExtChars (String.mk ('.' :: t)) = '.' :: t := by
  have hne : (String.mk ('.' :: t) == "") = false := by
    rw [beq_eq_false_iff_ne]
    intro hcontra
    exact List.noConfusion (congrArg String.data hcontra)
  have hfilter : ('.' :: t).filter (fun c => isAsciiAlnum c || c == '.') =
      '.' :: t := by
    rw [List.filter_cons_of_pos (by decide)]
    rw [List.filter_eq_self.mpr (fun c hc => by
      rw [(ht c hc).1]
      rfl)]
  have hmap : (('.' :: t).map jsToLowerAscii) = '.' :: t := by
    rw [List.map_cons, toLower_dot]
    rw [show t.map jsToLowerAscii = t.map id from
      List.map_congr_left (fun c hc => (ht c hc).2.1)]
    rw [List.map_id]
  unfold cleanExtChars
  rw [if_neg (by rw [hne]; exact fun hcontra => Bool.noConfusion hcontra)]
  rw [show (String.mk ('.' :: t)).data = '.' :: t from rfl, hfilter, hmap]
  rw [if_neg (fun hcontra => List.noConfusion hcontra)]
  simp

/-- The second sanitization pass leaves a clean base unchanged: when the
basename of `F` splits off as an already-clean `B`, the base pipeline
reproduces `B`. -/
theorem baseAfterReserved_of_clean {F : String} {B : List Char}
    (hbase : pathBasename F (pathExtname F) = String.mk B)
    (hB : B ≠ [])
    (hmem : ∀ c ∈ B, isCleanBaseChar c = true)
    (hhead : ∀ x, B.head? = some x → isAsciiAlnum x = true)
    (hlast : ∀ x, B.getLast? = some x → isAsciiAlnum x = true)
    (hadj : adjPair (· == '_') B = false)
    (hres : reservedNames.contains (String.mk (B.map jsToUpperAscii)) = false) :
    baseAfterReserved F = B := by
  have hmkne : String.mk B ≠ "" := by
    intro hcontra
    exact hB (congrArg String.data hcontra)
  have htrim : jsTrim (String.mk B) = String.mk B :=
    jsTrim_eq_self (fun c hc => (cleanBaseChar_resolve (hmem c hc)).1)
  have hinput : baseInput F = B := by
    unfold baseInput
    rw [hbase]
    rw [if_neg (by
      intro hcontra
      rcases (by simpa using hcontra :
          String.mk B = "" ∨ jsTrim (String.mk B) = "") with h | h
      · exact hmkne h
      · rw [htrim] at h
        exact hmkne h)]
  have hclean : cleanBase B = B := cleanBase_id hmem hhead hlast hadj
  have hb2 : baseBeforeReserved F = B := by
    unfold baseBeforeReserved
    rw [hinput, hclean, if_neg hB]
  unfold baseAfterReserved
  rw [hb2, hres]
  rfl

/-! ### C4 (amended): idempotence in the absence of truncation -/

set_option maxRecDepth 4000 in
set_option maxHeartbeats 1000000 in
/-- C4 (amended): the sanitizer is deterministic (a pure function of its
input), and `sanitize (sanitize s) = sanitize s` for every input whose base
name before the length truncation is at most 200 characters.  (The
counterexample `sanitize_not_idempotent` shows the 200-character truncation
can break idempotence by exposing a trailing underscore.) -/
theorem sanitize_idempotent_of_no_truncation (s : String)
    (h : (baseAfterReserved s).length ≤ 200) :
    sanitizeFilenameSafe (sanitizeFilenameSafe s) = sanitizeFilenameSafe s := by
  by_cases hs : s = ""
  · subst hs
    decide
  · obtain ⟨hne, hmem, hhead, hlast, hadj, hres⟩ := baseAfter_props s
    have htake : (baseAfterReserved s).take 200 = baseAfterReserved s :=
      List.take_of_length_le h
    have hdata := sanitizeFilenameSafe_data s hs
    rw [htake] at hdata
    have hnoslash : ∀ c ∈ baseAfterReserved s, (c == '/') = false :=
      fun c hc => (cleanBaseChar_resolve (hmem c hc)).2.2.2.2.2.2.2.2.1
    rcases cleanExtChars_shape s with ⟨hext0, hnil⟩ | ⟨t, hext, ht⟩
    · -- no extension: the sanitized name is exactly the clean base
      rw [hnil, List.append_nil] at hdata
      have hF : sanitizeFilenameSafe s = String.mk (baseAfterReserved s) := by
        refine String.ext ?_
        rw [hdata, data_mk]
      have hnodot : ∀ c ∈ baseAfterReserved s, c ≠ '.' :=
        baseAfterReserved_no_dot s hext0
      have hport : lastPortion (baseAfterReserved s) = baseAfterReserved s :=
        lastPortion_no_slash hnoslash
      have hext2 : pathExtname (String.mk (baseAfterReserved s)) = "" := by
        have h1 : extnamePortion
            (lastPortion (String.mk (baseAfterReserved s)).data) = [] := by
          rw [data_mk, hport]
          exact extnamePortion_no_dot hnodot
        unfold pathExtname
        rw [h1]
      have hbase2 : pathBasename (String.mk (baseAfterReserved s))
          (pathExtname (String.mk (baseAfterReserved s))) =
          String.mk (baseAfterReserved s) := by
        rw [hext2]
        refine String.ext ?_
        rw [pathBasename_empty_ext, data_mk, hport]
      have hafter2 : baseAfterReserved (String.mk (baseAfterReserved s)) =
          baseAfterReserved s :=
        baseAfterReserved_of_clean hbase2 hne hmem hhead hlast hadj hres
      rw [hF]
      refine String.ext ?_
      rw [sanitizeFilenameSafe_data _ (fun hcontra =>
        hne (mk_eq_empty hcontra))]
      rw [hafter2, htake, hext2, show cleanExtChars "" = [] from rfl,
        List.append_nil, data_mk]
    · -- extension '.'::t
      have hthd : ∀ c ∈ t, c ≠ '.' := fun c hc => (ht c hc).2.2
      have htalnum : ∀ c ∈ t, isAsciiAlnum c = true := fun c hc => (ht c hc).1
      rw [hext] at hdata
      have hF : sanitizeFilenameSafe s =
          String.mk (baseAfterReserved s ++ '.' :: t) := by
        refine String.ext ?_
        rw [hdata, data_mk]
      have hnoslashF : ∀ c ∈ baseAfterReserved s ++ '.' :: t,
          (c == '/') = false := by
        intro c hc
        rcases List.mem_append.mp hc with h' | h'
        · exact hnoslash c h'
        · rcases List.mem_cons.mp h' with rfl | h'
          · decide
          · exact (alnum_resolve (htalnum c h')).2
      have hport : lastPortion (baseAfterReserved s ++ '.' :: t) =
          baseAfterReserved s ++ '.' :: t := lastPortion_no_slash hnoslashF
      have hext2 : pathExtname (String.mk (baseAfterReserved s ++ '.' :: t)) =
          String.mk ('.' :: t) := by
        unfold pathExtname
        rw [data_mk, hport]
        rw [extnamePortion_append_ext hne
          (fun x hx => (alnum_resolve (hhead x hx)).1) hthd]
      have hbase2 : pathBasename (String.mk (baseAfterReserved s ++ '.' :: t))
          (pathExtname (String.mk (baseAfterReserved s ++ '.' :: t))) =
          String.mk (baseAfterReserved s) := by
        rw [hext2]
        exact pathBasename_strip hne hnoslashF
      have hafter2 : baseAfterReserved
          (String.mk (baseAfterReserved s ++ '.' :: t)) =
          baseAfterReserved s :=
        baseAfterReserved_of_clean hbase2 hne hmem hhead hlast hadj hres
      rw [hF]
      refine String.ext ?_
      rw [sanitizeFilenameSafe_data _ (fun hcontra =>
        absurd (List.append_eq_nil.mp (mk_eq_empty hcontra)).1 hne)]
      rw [hafter2, htake, hext2,
        cleanExtChars_fixed (fun c hc =>
          ⟨(ht c hc).1, (ht c hc).2.1, (ht c hc).2.2⟩), data_mk]

set_option maxRecDepth 4000 in
/-- Witness for `sanitize_idempotent_of_no_truncation` on a name with
diacritics, spaces and an uppercase extension. -/
theorem sanitize_idempotent_witness :
    (baseAfterReserved "héllo wörld.TXT").length ≤ 200 ∧
    sanitizeFilenameSafe (sanitizeFilenameSafe "héllo wörld.TXT") =
      sanitizeFilenameSafe "héllo wörld.TXT" :=
  ⟨by decide, sanitize_idempotent_of_no_truncation "héllo wörld.TXT" (by decide)⟩

/-! ### C1: the containment check -/

/-- C1: the claim states the containment check used by the info, download,
delete and rename entry points holds iff the resolved candidate equals the
resolved root or extends it past a path separator, and that a sibling
directory such as `/data/upload2` under root `/data/up` is rejected.  The
code's check is a bare `startsWith` without the separator test: the resolved
sibling `/data/upload2` passes the code's check even though the separator
form of containment (and hence the claim) rejects it. -/
theorem securityCheck_admits_sibling_directory :
    pathResolve (pathJoin "/data/up" "../upload2") = "/data/upload2" ∧
    passesSecurityCheck "/data/up" (pathJoin "/data/up" "../upload2") = true ∧
    isContainedSpec (pathResolve (pathJoin "/data/up" "../upload2"))
      (pathResolve "/data/up") = false := by
  refine ⟨by decide, by decide, by decide⟩

/-! ### C2: guard ordering and failure outcome -/

/-- C2: the claim states every entry point runs the containment guard before
its first file-system syscall and answers access-denied on guard failure.
The download handler violates both parts: for a request whose path resolves
outside the upload root to a non-existent target, it issues `fs.access`
first and then answers 404 (not-found), revealing non-existence of the
outside-root target. -/
theorem downloadRoute_syscall_before_guard :
    passesSecurityCheck "/data/uploads" (pathJoin "/data/uploads" "../secret") = false ∧
    downloadRoute "/data/uploads" "../secret" emptyFsys =
      ([FsOp.access "/data/secret"], HttpStatus.notFound) := by
  refine ⟨by decide, by decide⟩

/-! ### C4: the sanitizer is not idempotent -/

/-- A 201-character name whose cleaned base ends in `…a_b`: truncation to 200
characters leaves a trailing underscore that a second sanitization pass
strips. -/
def longUnderscoreName : String :=
  String.mk (List.replicate 199 'a' ++ ['_', 'b'])

set_option maxRecDepth 4000 in
/-- C4 counterexample: `sanitizeFilenameSafe` is not idempotent.  The base of
`longUnderscoreName` survives cleaning at 201 characters, step 6 truncates it
to 200 leaving a trailing `'_'`, and the second pass trims that edge
character, producing a 199-character result. -/
theorem sanitize_not_idempotent :
    sanitizeFilenameSafe (sanitizeFilenameSafe longUnderscoreName) ≠
      sanitizeFilenameSafe longUnderscoreName := by
  decide

/-! ### C5: the allocators' exclusive-create retry discipline -/

theorem allocFileLoop_step_ok {attempt : String → OpenResult}
    {dir baseName ext finalPath : String} {fuel counter hd : Nat}
    (h : attempt finalPath = OpenResult.ok hd) :
    allocFileLoop attempt dir baseName ext (fuel + 1) finalPath counter =
      ([finalPath], AllocOutcome.ok finalPath hd) := by
  simp only [allocFileLoop]
  rw [h]

theorem allocFileLoop_step_err {attempt : String → OpenResult}
    {dir baseName ext finalPath : String} {fuel counter e : Nat}
    (h : attempt finalPath = OpenResult.err e) :
    allocFileLoop attempt dir baseName ext (fuel + 1) finalPath counter =
      ([finalPath], AllocOutcome.fatal e) := by
  simp only [allocFileLoop]
  rw [h]

theorem allocFileLoop_step_eexist {attempt : String → OpenResult}
    {dir baseName ext finalPath : String} {fuel counter : Nat}
    (h : attempt finalPath = OpenResult.eexist) :
    allocFileLoop attempt dir baseName ext (fuel + 1) finalPath counter =
      (finalPath :: (allocFileLoop attempt dir baseName ext fuel
        (pathJoin dir (baseName ++ " (" ++ toString counter ++ ")" ++ ext))
        (counter + 1)).1,
       (allocFileLoop attempt dir baseName ext fuel
        (pathJoin dir (baseName ++ " (" ++ toString counter ++ ")" ++ ext))
        (counter + 1)).2) := by
  simp only [allocFileLoop]
  rw [h]

theorem allocDirLoop_step_ok {attempt : String → OpenResult}
    {folderPath finalPath : String} {fuel counter hd : Nat}
    (h : attempt finalPath = OpenResult.ok hd) :
    allocDirLoop attempt folderPath (fuel + 1) finalPath counter =
      ([finalPath], AllocOutcome.ok finalPath hd) := by
  simp only [allocDirLoop]
  rw [h]

theorem allocDirLoop_step_err {attempt : String → OpenResult}
    {folderPath finalPath : String} {fuel counter e : Nat}
    (h : attempt finalPath = OpenResult.err e) :
    allocDirLoop attempt folderPath (fuel + 1) finalPath counter =
      ([finalPath], AllocOutcome.fatal e) := by
  simp only [allocDirLoop]
  rw [h]

theorem allocDirLoop_step_eexist {attempt : String → OpenResult}
    {folderPath finalPath : String} {fuel counter : Nat}
    (h : attempt finalPath = OpenResult.eexist) :
    allocDirLoop attempt folderPath (fuel + 1) finalPath counter =
      (finalPath :: (allocDirLoop attempt folderPath fuel
        (folderPath ++ " (" ++ toString counter ++ ")") (counter + 1)).1,
       (allocDirLoop attempt folderPath fuel
        (folderPath ++ " (" ++ toString counter ++ ")") (counter + 1)).2) := by
  simp only [allocDirLoop]
  rw [h]

theorem allocFileLoop_run (attempt : String → OpenResult) (filePath : String) :
    ∀ (m i fuel : Nat), m < fuel →
    (∀ k, i ≤ k → k < i + m →
      attempt (fileCandidate filePath k) = OpenResult.eexist) →
    ((∀ hd, attempt (fileCandidate filePath (i + m)) = OpenResult.ok hd →
      allocFileLoop attempt (pathDirname filePath)
          (pathBasename filePath (pathExtname filePath))
          (pathExtname filePath) fuel (fileCandidate filePath i) (i + 1) =
        ((List.range' i (m + 1)).map (fileCandidate filePath),
          AllocOutcome.ok (fileCandidate filePath (i + m)) hd)) ∧
     (∀ e, attempt (fileCandidate filePath (i + m)) = OpenResult.err e →
      allocFileLoop attempt (pathDirname filePath)
          (pathBasename filePath (pathExtname filePath))
          (pathExtname filePath) fuel (fileCandidate filePath i) (i + 1) =
        ((List.range' i (m + 1)).map (fileCandidate filePath),
          AllocOutcome.fatal e))) := by
  intro m
  induction m with
  | zero =>
    intro i fuel hfuel hex
    cases fuel with
    | zero => omega
    | succ f =>
      constructor
      · intro hd hok
        rw [Nat.add_zero] at hok
        rw [allocFileLoop_step_ok hok, List.range'_one, List.map_cons,
          List.map_nil, Nat.add_zero]
      · intro e herr
        rw [Nat.add_zero] at herr
        rw [allocFileLoop_step_err herr, List.range'_one, List.map_cons,
          List.map_nil]
  | succ m ih =>
    intro i fuel hfuel hex
    cases fuel with
    | zero => omega
    | succ f =>
      have hi : attempt (fileCandidate filePath i) = OpenResult.eexist :=
        hex i (le_refl i) (by omega)
      have hnext : pathJoin (pathDirname filePath)
          (pathBasename filePath (pathExtname filePath) ++ " (" ++
            toString (i + 1) ++ ")" ++ pathExtname filePath) =
          fileCandidate filePath (i + 1) := rfl
      have hih := ih (i + 1) f (by omega)
        (fun k hk1 hk2 => hex k (by omega) (by omega))
      have haddr : i + 1 + m = i + (m + 1) := by omega
      constructor
      · intro hd hok
        have h1 := hih.1 hd (by rw [haddr]; exact hok)
        rw [haddr] at h1
        rw [allocFileLoop_step_eexist hi, hnext, h1]
        simp [List.range'_succ]
      · intro e herr
        have h1 := hih.2 e (by rw [haddr]; exact herr)
        rw [allocFileLoop_step_eexist hi, hnext, h1]
        simp [List.range'_succ]

theorem allocDirLoop_run (attempt : String → OpenResult) (folderPath : String) :
    ∀ (m i fuel : Nat), m < fuel →
    (∀ k, i ≤ k → k < i + m →
      attempt (dirCandidate folderPath k) = OpenResult.eexist) →
    ((∀ hd, attempt (dirCandidate folderPath (i + m)) = OpenResult.ok hd →
      allocDirLoop attempt folderPath fuel (dirCandidate folderPath i)
          (i + 1) =
        ((List.range' i (m + 1)).map (dirCandidate folderPath),
          AllocOutcome.ok (dirCandidate folderPath (i + m)) hd)) ∧
     (∀ e, attempt (dirCandidate folderPath (i + m)) = OpenResult.err e →
      allocDirLoop attempt folderPath fuel (dirCandidate folderPath i)
          (i + 1) =
        ((List.range' i (m + 1)).map (dirCandidate folderPath),
          AllocOutcome.fatal e))) := by
  intro m
  induction m with
  | zero =>
    intro i fuel hfuel hex
    cases fuel with
    | zero => omega
    | succ f =>
      constructor
      · intro hd hok
        rw [Nat.add_zero] at hok
        rw [allocDirLoop_step_ok hok, List.range'_one, List.map_cons,
          List.map_nil, Nat.add_zero]
      · intro e herr
        rw [Nat.add_zero] at herr
        rw [allocDirLoop_step_err herr, List.range'_one, List.map_cons,
          List.map_nil]
  | succ m ih =>
    intro i fuel hfuel hex
    cases fuel with
    | zero => omega
    | succ f =>
      have hi : attempt (dirCandidate folderPath i) = OpenResult.eexist :=
        hex i (le_refl i) (by omega)
      have hnext : folderPath ++ " (" ++ toString (i + 1) ++ ")" =
          dirCandidate folderPath (i + 1) := rfl
      have hih := ih (i + 1) f (by omega)
        (fun k hk1 hk2 => hex k (by omega) (by omega))
      have haddr : i + 1 + m = i + (m + 1) := by omega
      constructor
      · intro hd hok
        have h1 := hih.1 hd (by rw [haddr]; exact hok)
        rw [haddr] at h1
        rw [allocDirLoop_step_eexist hi, hnext, h1]
        simp [List.range'_succ]
      · intro e herr
        have h1 := hih.2 e (by rw [haddr]; exact herr)
        rw [allocDirLoop_step_eexist hi, hnext, h1]
        simp [List.range'_succ]

/-- C5: both allocators acquire names by atomic exclusive-create attempts
only (the attempt trace is exactly the candidate list, with no separate
existence probe): when the first `n` candidates fail with `EEXIST`, the
attempts are exactly candidates `0..n`, the n-th retry candidate for files
is `baseName (n)ext` (directories: `folder (n)`) with the counter starting
at 1, a success at candidate `n` returns that path together with the
still-open handle from its own exclusive create, and any non-`EEXIST`
failure at candidate `n` is propagated immediately instead of retried. -/
theorem allocators_exclusive_retry (attempt : String → OpenResult)
    (filePath folderPath : String) (n fuel : Nat) (hfuel : n < fuel) :
    ((∀ k, k < n → attempt (fileCandidate filePath k) = OpenResult.eexist) →
      (∀ hd, attempt (fileCandidate filePath n) = OpenResult.ok hd →
        getUniqueFilePath attempt filePath fuel =
          ((List.range (n + 1)).map (fileCandidate filePath),
            AllocOutcome.ok (fileCandidate filePath n) hd)) ∧
      (∀ e, attempt (fileCandidate filePath n) = OpenResult.err e →
        getUniqueFilePath attempt filePath fuel =
          ((List.range (n + 1)).map (fileCandidate filePath),
            AllocOutcome.fatal e))) ∧
    ((∀ k, k < n → attempt (dirCandidate folderPath k) = OpenResult.eexist) →
      (∀ hd, attempt (dirCandidate folderPath n) = OpenResult.ok hd →
        getUniqueFolderPath attempt folderPath fuel =
          ((List.range (n + 1)).map (dirCandidate folderPath),
            AllocOutcome.ok (dirCandidate folderPath n) hd)) ∧
      (∀ e, attempt (dirCandidate folderPath n) = OpenResult.err e →
        getUniqueFolderPath attempt folderPath fuel =
          ((List.range (n + 1)).map (dirCandidate folderPath),
            AllocOutcome.fatal e))) := by
  constructor
  · intro hex
    have hrun := allocFileLoop_run attempt filePath n 0 fuel hfuel
      (fun k hk1 hk2 => hex k (by omega))
    rw [Nat.zero_add] at hrun
    constructor
    · intro hd hok
      have h1 := hrun.1 hd hok
      show allocFileLoop attempt (pathDirname filePath)
        (pathBasename filePath (pathExtname filePath)) (pathExtname filePath)
        fuel (fileCandidate filePath 0) (0 + 1) = _
      rw [h1, List.range_eq_range']
    · intro e herr
      have h1 := hrun.2 e herr
      show allocFileLoop attempt (pathDirname filePath)
        (pathBasename filePath (pathExtname filePath)) (pathExtname filePath)
        fuel (fileCandidate filePath 0) (0 + 1) = _
      rw [h1, List.range_eq_range']
  · intro hex
    have hrun := allocDirLoop_run attempt folderPath n 0 fuel hfuel
      (fun k hk1 hk2 => hex k (by omega))
    rw [Nat.zero_add] at hrun
    constructor
    · intro hd hok
      have h1 := hrun.1 hd hok
      show allocDirLoop attempt folderPath fuel (dirCandidate folderPath 0)
        (0 + 1) = _
      rw [h1, List.range_eq_range']
    · intro e herr
      have h1 := hrun.2 e herr
      show allocDirLoop attempt folderPath fuel (dirCandidate folderPath 0)
        (0 + 1) = _
      rw [h1, List.range_eq_range']

/-- A concrete attempt oracle for the allocator witness: the first two file
candidates and the first directory candidate already exist. -/
def demoAttempt : String → OpenResult := fun p =>
  if p == "/up/a.txt" then OpenResult.eexist
  else if p == "/up/a (1).txt" then OpenResult.eexist
  else if p == "/up/a (2).txt" then OpenResult.ok 7
  else if p == "/up/d" then OpenResult.eexist
  else if p == "/up/d (1)" then OpenResult.ok 0
  else OpenResult.err 13

/-- Witness for `allocators_exclusive_retry`: two collisions for the file,
one for the directory. -/
theorem allocators_exclusive_retry_witness :
    (∀ k, k < 2 → demoAttempt (fileCandidate "/up/a.txt" k) =
      OpenResult.eexist) ∧
    getUniqueFilePath demoAttempt "/up/a.txt" 5 =
      ((List.range 3).map (fileCandidate "/up/a.txt"),
        AllocOutcome.ok (fileCandidate "/up/a.txt" 2) 7) ∧
    (∀ k, k < 1 → demoAttempt (dirCandidate "/up/d" k) =
      OpenResult.eexist) ∧
    getUniqueFolderPath demoAttempt "/up/d" 5 =
      ((List.range 2).map (dirCandidate "/up/d"),
        AllocOutcome.ok (dirCandidate "/up/d" 1) 0) :=
  ⟨by decide,
   ((allocators_exclusive_retry demoAttempt "/up/a.txt" "/up/d" 2 5
      (by omega)).1 (by decide)).1 7 (by decide),
   by decide,
   ((allocators_exclusive_retry demoAttempt "/up/a.txt" "/up/d" 1 5
      (by omega)).2 (by decide)).1 0 (by decide)⟩

/-! ### C8: rename conflicts leave the source untouched -/

/-- C8: a rename whose sanitized destination path already exists is answered
with the distinct conflict status 409; the syscall trace is exactly the two
probes on the source and the existence probe on the destination — it contains
no `rename` — and replaying the trace leaves the snapshot unchanged, so the
source entry keeps both its content and its location. -/
theorem rename_conflict_preserves_source (uploadDir param s : String)
    (fsys : Fsys) (e : FsEntry)
    (hblank : (s == "" || jsTrim s == "") = false)
    (hg1 : passesSecurityCheck uploadDir (pathJoin uploadDir param) = true)
    (hsrc : fsys.find (pathJoin uploadDir param) = some e)
    (hg2 : passesSecurityCheck uploadDir
      (pathJoin (pathDirname (pathJoin uploadDir param))
        (sanitizeFilenameSafe (jsTrim s))) = true)
    (hdst : fsys.hasPath
      (pathJoin (pathDirname (pathJoin uploadDir param))
        (sanitizeFilenameSafe (jsTrim s))) = true) :
    renameRoute uploadDir param (some s) fsys =
      ([FsOp.access (pathJoin uploadDir param),
        FsOp.stat (pathJoin uploadDir param),
        FsOp.access (pathJoin (pathDirname (pathJoin uploadDir param))
          (sanitizeFilenameSafe (jsTrim s)))], HttpStatus.conflict) ∧
    applyOps fsys (renameRoute uploadDir param (some s) fsys).1 = fsys ∧
    (applyOps fsys (renameRoute uploadDir param (some s) fsys).1).find
      (pathJoin uploadDir param) = some e := by
  have hroute : renameRoute uploadDir param (some s) fsys =
      ([FsOp.access (pathJoin uploadDir param),
        FsOp.stat (pathJoin uploadDir param),
        FsOp.access (pathJoin (pathDirname (pathJoin uploadDir param))
          (sanitizeFilenameSafe (jsTrim s)))], HttpStatus.conflict) := by
    simp only [renameRoute, hblank, hg1, hsrc, hg2, hdst, Bool.not_true,
      Bool.false_eq_true, if_false, if_true]
  refine ⟨hroute, ?_, ?_⟩
  · rw [hroute]
    rfl
  · rw [hroute]
    exact hsrc

/-- Witness for `rename_conflict_preserves_source` at a concrete snapshot
where both source and destination exist. -/
theorem rename_conflict_preserves_source_witness :
    renameRoute "/data/uploads" "a.txt" (some "b.txt") renameDemoFsys =
      ([FsOp.access (pathJoin "/data/uploads" "a.txt"),
        FsOp.stat (pathJoin "/data/uploads" "a.txt"),
        FsOp.access (pathJoin (pathDirname (pathJoin "/data/uploads" "a.txt"))
          (sanitizeFilenameSafe (jsTrim "b.txt")))], HttpStatus.conflict) ∧
    applyOps renameDemoFsys
      (renameRoute "/data/uploads" "a.txt" (some "b.txt") renameDemoFsys).1 =
      renameDemoFsys ∧
    (applyOps renameDemoFsys
      (renameRoute "/data/uploads" "a.txt" (some "b.txt")
        renameDemoFsys).1).find
      (pathJoin "/data/uploads" "a.txt") = some ⟨false, "alpha", 5, 0⟩ :=
  rename_conflict_preserves_source "/data/uploads" "a.txt" "b.txt"
    renameDemoFsys ⟨false, "alpha", 5, 0⟩ (by decide) (by decide) (by decide)
    (by decide) (by decide)

/-! ### Path algebra on normalized absolute paths (for C10) -/

theorem splitSlash_ne_nil (l : List Char) : splitSlash l ≠ [] := by
  cases l with
  | nil => simp [splitSlash]
  | cons c rest =>
    simp only [splitSlash]
    by_cases hc : (c == '/') = true
    · rw [if_pos hc]
      exact List.cons_ne_nil _ _
    · rw [if_neg hc]
      cases h' : splitSlash rest with
      | nil => exact List.cons_ne_nil _ _
      | cons g gs => exact List.cons_ne_nil _ _

theorem splitSlash_no_slash : ∀ {l g : List Char}, g ∈ splitSlash l →
    '/' ∉ g := by
  intro l
  induction l with
  | nil =>
    intro g hg
    simp only [splitSlash, List.mem_singleton] at hg
    subst hg
    exact List.not_mem_nil _
  | cons c rest ih =>
    intro g hg
    simp only [splitSlash] at hg
    by_cases hc : (c == '/') = true
    · rw [if_pos hc, List.mem_cons] at hg
      rcases hg with rfl | hg
      · exact List.not_mem_nil _
      · exact ih hg
    · rw [if_neg hc] at hg
      cases h' : splitSlash rest with
      | nil => exact absurd h' (splitSlash_ne_nil rest)
      | cons g0 gs =>
        rw [h', List.mem_cons] at hg
        have hcne : c ≠ '/' := fun h => hc (by rw [h]; rfl)
        rcases hg with rfl | hg
        · intro hmem
          rcases List.mem_cons.mp hmem with h | h
          · exact hcne h.symm
          · exact ih (h' ▸ List.mem_cons_self g0 gs) h
        · exact ih (h' ▸ List.mem_cons_of_mem g0 hg)

theorem splitSlash_of_no_slash {l : List Char} (h : '/' ∉ l) :
    splitSlash l = [l] := by
  induction l with
  | nil => rfl
  | cons c rest ih =>
    have hc : (c == '/') = false := by
      rw [beq_eq_false_iff_ne]
      intro hcontra
      exact h (hcontra ▸ List.mem_cons_self c rest)
    have hrest : '/' ∉ rest := fun hmem => h (List.mem_cons_of_mem c hmem)
    simp only [splitSlash, hc, Bool.false_eq_true, if_false, ih hrest]

theorem splitSlash_append_slash {g : List Char} (h : '/' ∉ g)
    (rest : List Char) :
    splitSlash (g ++ '/' :: rest) = g :: splitSlash rest := by
  induction g with
  | nil =>
    simp only [List.nil_append, splitSlash]
    rw [if_pos (by rfl)]
  | cons c g' ih =>
    have hc : (c == '/') = false := by
      rw [beq_eq_false_iff_ne]
      intro hcontra
      exact h (hcontra ▸ List.mem_cons_self c g')
    have hg' : '/' ∉ g' := fun hmem => h (List.mem_cons_of_mem c hmem)
    simp only [List.cons_append, splitSlash, hc, Bool.false_eq_true, if_false,
      List.append_eq, ih hg']

theorem interSlash_cons (g : List Char) {gs : List (List Char)}
    (h : gs ≠ []) : interSlash (g :: gs) = g ++ '/' :: interSlash gs := by
  cases gs with
  | nil => exact absurd rfl h
  | cons g1 gs' => rfl

theorem interSlash_ne_nil {segs : List (List Char)}
    (hreg : ∀ g ∈ segs, regSeg g) (hne : segs ≠ []) : interSlash segs ≠ [] := by
  cases segs with
  | nil => exact absurd rfl hne
  | cons g gs =>
    cases gs with
    | nil => exact (hreg g (List.mem_cons_self _ _)).1
    | cons g1 gs' =>
      rw [interSlash_cons g (List.cons_ne_nil g1 gs')]
      intro hcontra
      rcases List.append_eq_nil.mp hcontra with ⟨_, h2⟩
      exact List.cons_ne_nil _ _ h2

theorem interSlash_concat : ∀ {gs : List (List Char)} (g : List Char),
    gs ≠ [] → interSlash (gs ++ [g]) = interSlash gs ++ '/' :: g := by
  intro gs
  induction gs with
  | nil =>
    intro g h
    exact absurd rfl h
  | cons a gs' ih =>
    intro g _
    cases hgs : gs' with
    | nil => rfl
    | cons b gs'' =>
      subst hgs
      rw [List.cons_append, interSlash_cons a (by simp),
        ih g (List.cons_ne_nil _ _), interSlash_cons a (List.cons_ne_nil _ _),
        List.append_assoc, List.cons_append]

theorem interSlash_getLast_ne_slash : ∀ {segs : List (List Char)},
    (∀ g ∈ segs, regSeg g) → ∀ x, (interSlash segs).getLast? = some x →
    (x == '/') = false := by
  intro segs
  induction segs with
  | nil =>
    intro _ x hx
    simp [interSlash] at hx
  | cons g gs ih =>
    intro hreg x hx
    cases hgs : gs with
    | nil =>
      subst hgs
      have hmem : x ∈ g := mem_of_getLast? hx
      rw [beq_eq_false_iff_ne]
      intro hcontra
      exact (hreg g (List.mem_cons_self _ _)).2.2.2 (hcontra ▸ hmem)
    | cons g1 gs' =>
      subst hgs
      rw [interSlash_cons g (List.cons_ne_nil g1 gs')] at hx
      have hne : interSlash (g1 :: gs') ≠ [] :=
        interSlash_ne_nil (fun g' hg' => hreg g' (List.mem_cons_of_mem g hg'))
          (List.cons_ne_nil g1 gs')
      rw [show ('/' :: interSlash (g1 :: gs')) = ['/'] ++ interSlash (g1 :: gs')
          from rfl, ← List.append_assoc, getLast?_append_right hne] at hx
      exact ih (fun g' hg' => hreg g' (List.mem_cons_of_mem g hg')) x hx

theorem normSegs_nil_cons (acc : List (List Char)) (l : List (List Char)) :
    normSegs false acc ([] :: l) = normSegs false acc l := by
  simp [normSegs]

theorem normSegs_regular_id : ∀ {l : List (List Char)},
    (∀ g ∈ l, regSeg g) → ∀ acc, normSegs false acc l = acc.reverse ++ l := by
  intro l
  induction l with
  | nil =>
    intro _ acc
    simp [normSegs]
  | cons s rest ih =>
    intro hreg acc
    obtain ⟨h1, h2, h3, _⟩ := hreg s (List.mem_cons_self _ _)
    simp only [normSegs]
    rw [if_neg (fun h => h.elim h1 h2), if_neg h3,
      ih (fun g hg => hreg g (List.mem_cons_of_mem s hg)) (s :: acc)]
    simp

theorem normSegs_regular : ∀ (l acc : List (List Char)),
    (∀ g ∈ acc, regSeg g) → (∀ g ∈ l, '/' ∉ g) →
    ∀ g ∈ normSegs false acc l, regSeg g := by
  intro l
  induction l with
  | nil =>
    intro acc hacc _ g hg
    simp only [normSegs] at hg
    exact hacc g (List.mem_reverse.mp hg)
  | cons s rest ih =>
    intro acc hacc hl g hg
    have hl' : ∀ g' ∈ rest, '/' ∉ g' :=
      fun g' hg' => hl g' (List.mem_cons_of_mem s hg')
    by_cases h1 : s = [] ∨ s = ['.']
    · simp only [normSegs, if_pos h1] at hg
      exact ih acc hacc hl' g hg
    · by_cases h2 : s = ['.', '.']
      · cases acc with
        | nil =>
          simp only [normSegs, if_neg h1, if_pos h2] at hg
          exact ih [] (fun g' hg' => absurd hg' (List.not_mem_nil g')) hl' g hg
        | cons t acc' =>
          have ht : ¬ t = ['.', '.'] := (hacc t (List.mem_cons_self _ _)).2.2.1
          simp only [normSegs, if_neg h1, if_pos h2, if_neg ht] at hg
          exact ih acc' (fun g' hg' => hacc g' (List.mem_cons_of_mem t hg'))
            hl' g hg
      · simp only [normSegs, if_neg h1, if_neg h2] at hg
        push_neg at h1
        refine ih (s :: acc) ?_ hl' g hg
        intro g' hg'
        rcases List.mem_cons.mp hg' with rfl | hmem
        · exact ⟨h1.1, h1.2, h2, hl g' (List.mem_cons_self _ _)⟩
        · exact hacc g' hmem

theorem takeWhile_all {p : Char → Bool} : ∀ {l : List Char},
    (∀ x ∈ l, p x = true) → l.takeWhile p = l := by
  intro l
  induction l with
  | nil => intro _; rfl
  | cons a r ih =>
    intro h
    simp [List.takeWhile_cons, h a (List.mem_cons_self _ _),
      ih (fun x hx => h x (List.mem_cons_of_mem a hx))]

theorem takeWhile_append_stop {p : Char → Bool} {c : Char} (hc : p c = false) :
    ∀ {l : List Char} (l' : List Char), (∀ x ∈ l, p x = true) →
    (l ++ c :: l').takeWhile p = l := by
  intro l
  induction l with
  | nil =>
    intro l' _
    simp [List.takeWhile_cons, hc]
  | cons a r ih =>
    intro l' h
    rw [List.cons_append]
    simp [List.takeWhile_cons, h a (List.mem_cons_self _ _),
      ih l' (fun x hx => h x (List.mem_cons_of_mem a hx))]

theorem dropTrailing_append_pos {p : Char → Bool} {c : Char} (hc : p c = true)
    (l : List Char) : dropTrailing p (l ++ [c]) = dropTrailing p l := by
  unfold dropTrailing
  rw [List.reverse_append]
  simp [List.dropWhile_cons, hc]

theorem dropTrailing_slash_na {segs : List (List Char)} {tr : List Char}
    (hreg : ∀ g ∈ segs, regSeg g) (htr : tr = [] ∨ tr = ['/']) :
    dropTrailing (· == '/') (interSlash segs ++ tr) = interSlash segs := by
  have hself : dropTrailing (· == '/') (interSlash segs) = interSlash segs := by
    cases segs with
    | nil => rfl
    | cons g gs => exact dropTrailing_eq_self (interSlash_getLast_ne_slash hreg)
  rcases htr with rfl | rfl
  · rw [List.append_nil, hself]
  · rw [dropTrailing_append_pos (by rfl) (interSlash segs), hself]

theorem bne_slash_of_not_mem {g : List Char} (hg : '/' ∉ g) :
    ∀ x ∈ g.reverse, (x != '/') = true := by
  intro x hx
  rw [bne_iff_ne]
  intro hcontra
  exact hg (hcontra ▸ List.mem_reverse.mp hx)

/-- `path.dirname` of a normalized absolute path (with an optional trailing
slash) drops the last segment. -/
theorem dirname_na : ∀ {segs : List (List Char)} {tr : List Char},
    (∀ g ∈ segs, regSeg g) → (tr = [] ∨ tr = ['/']) →
    dirnameChars ('/' :: (interSlash segs ++ tr)) =
      '/' :: interSlash segs.dropLast := by
  intro segs tr hreg htr
  rcases List.eq_nil_or_concat segs with rfl | ⟨gs, g, rfl⟩
  · rcases htr with rfl | rfl <;> decide
  · rw [List.concat_eq_append] at hreg ⊢
    have hg : regSeg g := hreg g (List.mem_append.mpr (Or.inr
      (List.mem_singleton.mpr rfl)))
    have hall := bne_slash_of_not_mem hg.2.2.2
    cases gs with
    | nil =>
      simp only [List.nil_append] at hreg ⊢
      simp only [dirnameChars]
      rw [dropTrailing_slash_na hreg htr,
        show interSlash [g] = g from rfl, takeWhile_all hall,
        List.length_reverse, if_pos rfl]
      rfl
    | cons b gs' =>
      have hne : (b :: gs') ≠ [] := List.cons_ne_nil _ _
      have hregs : ∀ g' ∈ b :: gs', regSeg g' :=
        fun g' hg' => hreg g' (List.mem_append.mpr (Or.inl hg'))
      have hinter : interSlash ((b :: gs') ++ [g]) =
          interSlash (b :: gs') ++ '/' :: g := interSlash_concat g hne
      simp only [dirnameChars]
      rw [dropTrailing_slash_na hreg htr, hinter, List.reverse_append,
        List.reverse_cons, List.append_assoc, List.singleton_append,
        @takeWhile_append_stop (fun x => x != '/') '/' (by rfl) g.reverse
          (interSlash (b :: gs')).reverse hall,
        List.length_reverse, List.length_append, List.length_cons]
      rw [if_neg (by omega)]
      have hlen : 0 < (interSlash (b :: gs')).length :=
        List.length_pos.mpr (interSlash_ne_nil hregs hne)
      have hidx : (interSlash (b :: gs')).length + (g.length + 1) - g.length =
          (interSlash (b :: gs')).length + 1 := by omega
      rw [hidx, show ((interSlash (b :: gs')).length + 1 == 1) = false from
          beq_eq_false_iff_ne.mpr (by omega), Bool.and_false,
        if_neg (by simp)]
      rw [List.take_succ_cons, List.append_assoc, List.take_left,
        List.dropLast_concat]

/-- `path.normalize` of an absolute path yields a slash, regular segments
joined by slashes, and at most a trailing slash. -/
theorem normalizeChars_abs (cs : List Char) :
    ∃ segs tr, (∀ g ∈ segs, regSeg g) ∧ (tr = [] ∨ tr = ['/']) ∧
      normalizeChars ('/' :: cs) = '/' :: (interSlash segs ++ tr) := by
  have hsegs : ∀ g ∈ normSegs false [] (splitSlash ('/' :: cs)), regSeg g :=
    normSegs_regular _ [] (fun g hg => absurd hg (List.not_mem_nil g))
      (fun g hg => splitSlash_no_slash hg)
  simp only [normalizeChars]
  rw [if_neg (List.cons_ne_nil _ _),
    show (('/' :: cs).head? == some '/') = true from rfl, Bool.not_true]
  by_cases hcore : interSlash (normSegs false [] (splitSlash ('/' :: cs))) = []
  · rw [if_pos hcore, if_pos rfl]
    exact ⟨[], [], fun g hg => absurd hg (List.not_mem_nil g), Or.inl rfl, rfl⟩
  · rw [if_neg hcore, if_pos rfl]
    cases hTrail : (('/' :: cs).getLast? == some '/') with
    | true =>
      refine ⟨normSegs false [] (splitSlash ('/' :: cs)), ['/'], hsegs,
        Or.inr rfl, ?_⟩
      rw [if_pos rfl, List.cons_append]
    | false =>
      refine ⟨normSegs false [] (splitSlash ('/' :: cs)), [], hsegs,
        Or.inl rfl, ?_⟩
      rw [if_neg (by simp), List.cons_append]

theorem splitSlash_interSlash_append : ∀ {segs : List (List Char)},
    (∀ g ∈ segs, '/' ∉ g) → segs ≠ [] → ∀ rest,
    splitSlash (interSlash segs ++ '/' :: rest) = segs ++ splitSlash rest := by
  intro segs
  induction segs with
  | nil =>
    intro _ h
    exact absurd rfl h
  | cons g gs ih =>
    intro hreg _ rest
    cases gs with
    | nil =>
      rw [show interSlash [g] = g from rfl,
        splitSlash_append_slash (hreg g (List.mem_cons_self _ _)) rest,
        List.singleton_append]
    | cons b gs' =>
      rw [interSlash_cons g (List.cons_ne_nil b gs'), List.append_assoc,
        List.cons_append,
        splitSlash_append_slash (hreg g (List.mem_cons_self _ _)),
        ih (fun g' hg' => hreg g' (List.mem_cons_of_mem g hg'))
          (List.cons_ne_nil b gs') rest]
      simp

/-- Joining a regular segment onto a normalized absolute path appends it as
one more segment. -/
theorem normalize_na_append {segs : List (List Char)}
    (hreg : ∀ g ∈ segs, regSeg g) {n : List Char} (hn : regSeg n) :
    normalizeChars (('/' :: interSlash segs) ++ '/' :: n) =
      '/' :: interSlash (segs ++ [n]) := by
  have hregn : ∀ g ∈ segs ++ [n], regSeg g := by
    intro g hg
    rcases List.mem_append.mp hg with h | h
    · exact hreg g h
    · rw [List.mem_singleton] at h
      subst h
      exact hn
  have hsplit : normSegs false []
      (splitSlash (('/' :: interSlash segs) ++ '/' :: n)) = segs ++ [n] := by
    rw [List.cons_append, show splitSlash ('/' :: (interSlash segs ++ '/' :: n))
        = [] :: splitSlash (interSlash segs ++ '/' :: n) from by
        simp [splitSlash], normSegs_nil_cons]
    cases segs with
    | nil =>
      rw [show interSlash [] = [] from rfl, List.nil_append,
        show splitSlash ('/' :: n) = [] :: splitSlash n from by
          simp [splitSlash],
        splitSlash_of_no_slash hn.2.2.2, normSegs_nil_cons]
      exact normSegs_regular_id hregn []
    | cons b gs' =>
      rw [splitSlash_interSlash_append (fun g hg => (hreg g hg).2.2.2)
          (List.cons_ne_nil b gs') n, splitSlash_of_no_slash hn.2.2.2]
      exact normSegs_regular_id hregn []
  have hlast : ((('/' :: interSlash segs) ++ '/' :: n).getLast? ==
      some '/') = false := by
    rw [getLast?_append_right (List.cons_ne_nil '/' n),
      show ('/' :: n) = ['/'] ++ n from rfl, getLast?_append_right hn.1]
    cases hL : n.getLast? with
    | none => exact absurd (List.getLast?_eq_none_iff.mp hL) hn.1
    | some x =>
      rw [beq_eq_false_iff_ne]
      intro hcontra
      have hx : x ∈ n := mem_of_getLast? hL
      exact hn.2.2.2 (Option.some.inj hcontra ▸ hx)
  have hne0 : ('/' :: interSlash segs) ++ '/' :: n ≠ [] := by
    rw [List.cons_append]
    exact List.cons_ne_nil _ _
  have hhead : ((('/' :: interSlash segs) ++ '/' :: n).head? ==
      some '/') = true := by
    rw [List.cons_append]
    rfl
  have hcore : interSlash (segs ++ [n]) ≠ [] :=
    interSlash_ne_nil hregn (by simp)
  simp only [normalizeChars]
  rw [if_neg hne0, hhead, Bool.not_true, hsplit, hlast,
    if_neg hcore, if_pos rfl, if_neg (by simp), List.append_nil]

theorem join_na {segs : List (List Char)} (hreg : ∀ g ∈ segs, regSeg g)
    (n : String) (hn : regSeg n.data) :
    pathJoin (String.mk ('/' :: interSlash segs)) n =
      String.mk ('/' :: interSlash (segs ++ [n.data])) := by
  have ha : (String.mk ('/' :: interSlash segs) == "") = false := by
    rw [beq_eq_false_iff_ne]
    intro h
    exact List.cons_ne_nil _ _ (mk_eq_empty h)
  have hb : (n == "") = false := by
    rw [beq_eq_false_iff_ne]
    intro h
    exact hn.1 (by rw [h])
  simp only [pathJoin, ha, hb, Bool.false_and, Bool.false_eq_true, if_false]
  rw [data_mk, normalize_na_append hreg hn]

theorem startsWith_slash_data {u : String} (h : strStartsWith u "/" = true) :
    ∃ rest, u.data = '/' :: rest := by
  unfold strStartsWith at h
  cases hu : u.data with
  | nil =>
    rw [show ("/" : String).data = ['/'] from rfl, hu] at h
    exact absurd h (by decide)
  | cons c rest =>
    rw [show ("/" : String).data = ['/'] from rfl, hu] at h
    simp only [isPrefixOfChars, Bool.and_eq_true] at h
    have hc : c = '/' := (beq_iff_eq.mp h.1).symm
    subst hc
    exact ⟨rest, rfl⟩

theorem pathJoin_data_abs (u p : String) {ucs : List Char}
    (hu : u.data = '/' :: ucs) :
    ∃ segs tr, (∀ g ∈ segs, regSeg g) ∧ (tr = [] ∨ tr = ['/']) ∧
      (pathJoin u p).data = '/' :: (interSlash segs ++ tr) := by
  have ha : (u == "") = false := by
    rw [beq_eq_false_iff_ne]
    intro h
    rw [h] at hu
    exact List.noConfusion hu
  by_cases hb : (p == "") = true
  · simp only [pathJoin, ha, Bool.false_and, Bool.false_eq_true, if_false,
      hb, eq_self_iff_true, if_true, pathNormalize]
    rw [data_mk, hu]
    exact normalizeChars_abs ucs
  · have hb' : (p == "") = false := Bool.eq_false_iff.mpr hb
    simp only [pathJoin, ha, hb', Bool.false_and, Bool.false_eq_true, if_false]
    rw [data_mk, hu, List.cons_append]
    exact normalizeChars_abs (ucs ++ '/' :: p.data)

theorem pathDirname_mk (l : List Char) :
    pathDirname (String.mk l) = String.mk (dirnameChars l) := rfl

/-- The directory part of `path.join(u, p)` for an absolute `u` is a
normalized absolute path with regular segments and no trailing slash. -/
theorem dirname_of_join_abs (u p : String)
    (hu : strStartsWith u "/" = true) :
    ∃ segs, (∀ g ∈ segs, regSeg g) ∧
      pathDirname (pathJoin u p) = String.mk ('/' :: interSlash segs) := by
  obtain ⟨ucs, hud⟩ := startsWith_slash_data hu
  obtain ⟨segs, tr, hreg, htr, hdata⟩ := pathJoin_data_abs u p hud
  refine ⟨segs.dropLast,
    fun g hg => hreg g ((List.dropLast_sublist segs).subset hg), ?_⟩
  rw [show pathDirname (pathJoin u p) =
      String.mk (dirnameChars (pathJoin u p).data) from rfl, hdata,
    dirname_na hreg htr]

theorem claimAllowed_ne_sep {c : Char} (h : isClaimAllowedChar c = true) :
    c ≠ '/' ∧ c ≠ '\\' := by
  constructor <;> intro hcontra <;> subst hcontra <;> revert h <;> decide

theorem sanitize_chars_allowed (s : String) :
    ∀ c ∈ (sanitizeFilenameSafe s).data, isClaimAllowedChar c = true := by
  by_cases hs : s = ""
  · subst hs
    decide
  · intro c hc
    rw [sanitizeFilenameSafe_data s hs] at hc
    rcases List.mem_append.mp hc with h | h
    · exact claimAllowed_of_cleanBaseChar
        ((baseAfter_props s).2.1 c (List.take_subset _ _ h))
    · rcases cleanExtChars_shape s with ⟨_, hnil⟩ | ⟨t, hext, ht⟩
      · rw [hnil] at h
        cases h
      · rw [hext] at h
        rcases List.mem_cons.mp h with rfl | h
        · decide
        · exact claimAllowed_of_alnum (ht c h).1

theorem sanitize_head_alnum {s : String} (hs : s ≠ "") {x : Char}
    (hx : (sanitizeFilenameSafe s).data.head? = some x) :
    isAsciiAlnum x = true := by
  rw [sanitizeFilenameSafe_data s hs,
    head?_append_left (take200_ne_nil (baseAfter_props s).1)] at hx
  have htake := List.take_prefix 200 (baseAfterReserved s)
  exact (baseAfter_props s).2.2.1 x (head?_of_isPrefixOf htake hx)

/-- The sanitizer's output is always a single regular path segment. -/
theorem sanitize_regSeg (s : String) : regSeg (sanitizeFilenameSafe s).data := by
  have hsep : ∀ c ∈ (sanitizeFilenameSafe s).data, c ≠ '/' :=
    fun c hc => (claimAllowed_ne_sep (sanitize_chars_allowed s c hc)).1
  by_cases hs : s = ""
  · subst hs
    exact ⟨by decide, by decide, by decide, by decide⟩
  · refine ⟨?_, ?_, ?_, ?_⟩
    · intro h
      apply sanitize_ne_empty s
      have heta : sanitizeFilenameSafe s =
          String.mk (sanitizeFilenameSafe s).data := rfl
      rw [heta, h]
    · intro h
      have hhd : (sanitizeFilenameSafe s).data.head? = some '.' := by
        rw [h]
        rfl
      exact absurd (sanitize_head_alnum hs hhd) (by decide)
    · intro h
      have hhd : (sanitizeFilenameSafe s).data.head? = some '.' := by
        rw [h]
        rfl
      exact absurd (sanitize_head_alnum hs hhd) (by decide)
    · intro hmem
      exact hsep '/' hmem rfl

theorem renameRoute_ok_ops {uploadDir param s : String} {fsys : Fsys}
    {ops : List FsOp}
    (h : renameRoute uploadDir param (some s) fsys = (ops, HttpStatus.ok)) :
    ops = [FsOp.access (pathJoin uploadDir param),
      FsOp.stat (pathJoin uploadDir param),
      FsOp.access (pathJoin (pathDirname (pathJoin uploadDir param))
        (sanitizeFilenameSafe (jsTrim s))),
      FsOp.rename (pathJoin uploadDir param)
        (pathJoin (pathDirname (pathJoin uploadDir param))
          (sanitizeFilenameSafe (jsTrim s)))] := by
  simp only [renameRoute] at h
  split at h
  · exact HttpStatus.noConfusion (congrArg Prod.snd h)
  · split at h
    · exact HttpStatus.noConfusion (congrArg Prod.snd h)
    · split at h
      · exact HttpStatus.noConfusion (congrArg Prod.snd h)
      · split at h
        · exact HttpStatus.noConfusion (congrArg Prod.snd h)
        · split at h
          · exact HttpStatus.noConfusion (congrArg Prod.snd h)
          · exact (congrArg Prod.fst h).symm

/-! ### C10: a successful rename stays in the source's directory -/

/-- C10: the sanitizer never emits a path separator (`/` or `\`), and a
successful rename — whose destination the handler builds by joining the
source's own directory with the sanitized new name — keeps the entry in that
directory: the `rename` syscall's destination has the same `path.dirname` as
its source, so only the final path component can change (the upload root is
absolute, as deployed). -/
theorem rename_preserves_parent_directory :
    (∀ s : String, ∀ c ∈ (sanitizeFilenameSafe s).data,
      c ≠ '/' ∧ c ≠ '\\') ∧
    (∀ uploadDir param s : String, ∀ fsys : Fsys, ∀ ops : List FsOp,
      ∀ src dst : String,
      strStartsWith uploadDir "/" = true →
      renameRoute uploadDir param (some s) fsys = (ops, HttpStatus.ok) →
      FsOp.rename src dst ∈ ops →
      pathDirname dst = pathDirname src) := by
  constructor
  · intro s c hc
    exact claimAllowed_ne_sep (sanitize_chars_allowed s c hc)
  · intro uploadDir param s fsys ops src dst habs hroute hmem
    rw [renameRoute_ok_ops hroute] at hmem
    simp only [List.mem_cons, List.not_mem_nil, or_false] at hmem
    rcases hmem with h | h | h | h
    · exact FsOp.noConfusion h
    · exact FsOp.noConfusion h
    · exact FsOp.noConfusion h
    · injection h with h1 h2
      subst h1
      subst h2
      obtain ⟨segs, hreg, hcd⟩ := dirname_of_join_abs uploadDir param habs
      have hregn : ∀ g ∈ segs ++ [(sanitizeFilenameSafe (jsTrim s)).data],
          regSeg g := by
        intro g hg
        rcases List.mem_append.mp hg with h' | h'
        · exact hreg g h'
        · rw [List.mem_singleton] at h'
          subst h'
          exact sanitize_regSeg _
      rw [hcd, join_na hreg _ (sanitize_regSeg _), pathDirname_mk]
      have h1 := @dirname_na
        (segs ++ [(sanitizeFilenameSafe (jsTrim s)).data]) [] hregn (Or.inl rfl)
      rw [List.append_nil] at h1
      rw [h1, List.dropLast_concat]

/-- Witness for `rename_preserves_parent_directory`: a concrete allowed
character, and a concrete successful rename whose destination keeps the
source's parent directory. -/
theorem rename_preserves_parent_directory_witness :
    ('b' ≠ '/' ∧ 'b' ≠ '\\') ∧
    pathDirname (pathJoin (pathDirname (pathJoin "/data/uploads" "a.txt"))
      (sanitizeFilenameSafe (jsTrim "b.txt"))) =
      pathDirname (pathJoin "/data/uploads" "a.txt") :=
  ⟨rename_preserves_parent_directory.1 "b.txt" 'b' (by decide),
   rename_preserves_parent_directory.2 "/data/uploads" "a.txt" "b.txt"
     ⟨[("/data/uploads/a.txt", ⟨false, "x", 1, 0⟩)]⟩
     [FsOp.access (pathJoin "/data/uploads" "a.txt"),
      FsOp.stat (pathJoin "/data/uploads" "a.txt"),
      FsOp.access (pathJoin (pathDirname (pathJoin "/data/uploads" "a.txt"))
        (sanitizeFilenameSafe (jsTrim "b.txt"))),
      FsOp.rename (pathJoin "/data/uploads" "a.txt")
        (pathJoin (pathDirname (pathJoin "/data/uploads" "a.txt"))
          (sanitizeFilenameSafe (jsTrim "b.txt")))]
     (pathJoin "/data/uploads" "a.txt")
     (pathJoin (pathDirname (pathJoin "/data/uploads" "a.txt"))
       (sanitizeFilenameSafe (jsTrim "b.txt")))
     (by decide) (by decide) (by decide)⟩

/-! ### C9: the recursive listing -/

theorem charsLe_total : ∀ (a b : List Char),
    (charsLe a b || charsLe b a) = true := by
  intro a
  induction a with
  | nil => intro b; rfl
  | cons x as ih =>
    intro b
    cases b with
    | nil => rfl
    | cons y bs =>
      simp only [charsLe]
      by_cases hxy : x.toNat < y.toNat
      · simp [if_pos hxy]
      · by_cases hyx : y.toNat < x.toNat
        · simp [if_neg hxy, if_pos hyx]
        · simp only [if_neg hxy, if_neg hyx]
          exact ih bs

theorem charsLe_trans : ∀ (a b c : List Char), charsLe a b = true →
    charsLe b c = true → charsLe a c = true := by
  intro a
  induction a with
  | nil => intro b c _ _; rfl
  | cons x as ih =>
    intro b c h1 h2
    cases b with
    | nil => exact absurd h1 (by simp [charsLe])
    | cons y bs =>
      cases c with
      | nil => exact absurd h2 (by simp [charsLe])
      | cons z cs =>
        simp only [charsLe] at h1 h2 ⊢
        by_cases hxy : x.toNat < y.toNat
        · by_cases hyz : y.toNat < z.toNat
          · rw [if_pos (by omega)]
          · rw [if_neg hyz] at h2
            by_cases hzy : z.toNat < y.toNat
            · rw [if_pos hzy] at h2
              exact Bool.noConfusion h2
            · rw [if_pos (by omega)]
        · rw [if_neg hxy] at h1
          by_cases hyx : y.toNat < x.toNat
          · rw [if_pos hyx] at h1
            exact Bool.noConfusion h1
          · rw [if_neg hyx] at h1
            by_cases hyz : y.toNat < z.toNat
            · rw [if_pos (by omega)]
            · rw [if_neg hyz] at h2
              by_cases hzy : z.toNat < y.toNat
              · rw [if_pos hzy] at h2
                exact Bool.noConfusion h2
              · rw [if_neg hzy] at h2
                rw [if_neg (by omega), if_neg (by omega)]
                exact ih bs cs h1 h2

theorem itemLe_total (a b : FItem) : itemLe a b = true ∨ itemLe b a = true := by
  unfold itemLe
  cases ha : a.isDir <;> cases hb : b.isDir <;> simp <;>
    simpa using charsLe_total a.name.data b.name.data

theorem itemLe_trans (a b c : FItem) (h1 : itemLe a b = true)
    (h2 : itemLe b c = true) : itemLe a c = true := by
  unfold itemLe at h1 h2 ⊢
  cases ha : a.isDir <;> cases hb : b.isDir <;> cases hc : c.isDir <;>
    rw [ha, hb] at h1 <;> rw [hb, hc] at h2 <;> simp at h1 h2 ⊢ <;>
    try exact charsLe_trans _ _ _ h1 h2

theorem sortedOK_cons {b : FItem} {l : List FItem} :
    itemsSortedOK (b :: l) = true ↔
      (∀ y, l.head? = some y → itemLe b y = true) ∧
      itemsSortedOK l = true := by
  cases l with
  | nil => simp [itemsSortedOK]
  | cons c cs =>
    simp only [itemsSortedOK, Bool.and_eq_true, List.head?_cons]
    constructor
    · rintro ⟨h1, h2⟩
      exact ⟨fun y hy => (Option.some_inj.mp hy) ▸ h1, h2⟩
    · rintro ⟨h1, h2⟩
      exact ⟨h1 c rfl, h2⟩

theorem sortInsert_head : ∀ (a : FItem) (l : List FItem) (y : FItem),
    (sortInsert a l).head? = some y → y = a ∨ l.head? = some y := by
  intro a l y
  cases l with
  | nil =>
    intro h
    rw [show sortInsert a [] = [a] from rfl, List.head?_cons,
      Option.some_inj] at h
    exact Or.inl h.symm
  | cons b bs =>
    simp only [sortInsert]
    by_cases hle : itemLe a b = true
    · rw [if_pos hle]
      intro h
      rw [List.head?_cons, Option.some_inj] at h
      exact Or.inl h.symm
    · rw [if_neg hle]
      intro h
      rw [List.head?_cons, Option.some_inj] at h
      exact Or.inr (by rw [List.head?_cons, h])

theorem sortedOK_sortInsert : ∀ (a : FItem) (l : List FItem),
    itemsSortedOK l = true → itemsSortedOK (sortInsert a l) = true := by
  intro a l
  induction l with
  | nil => intro _; rfl
  | cons b bs ih =>
    intro h
    obtain ⟨hhead, htail⟩ := sortedOK_cons.mp h
    simp only [sortInsert]
    by_cases hle : itemLe a b = true
    · rw [if_pos hle]
      refine sortedOK_cons.mpr ⟨?_, h⟩
      intro y hy
      rw [List.head?_cons, Option.some_inj] at hy
      exact hy ▸ hle
    · rw [if_neg hle]
      have hba : itemLe b a = true := by
        rcases itemLe_total a b with h' | h'
        · exact absurd h' hle
        · exact h'
      refine sortedOK_cons.mpr ⟨?_, ih htail⟩
      intro y hy
      rcases sortInsert_head a bs y hy with rfl | hy'
      · exact hba
      · exact hhead y hy'

theorem sortedOK_sortItems : ∀ (l : List FItem),
    itemsSortedOK (sortItems l) = true := by
  intro l
  induction l with
  | nil => rfl
  | cons a as ih => exact sortedOK_sortInsert a (sortItems as) ih

theorem mem_sortInsert : ∀ (a x : FItem) (l : List FItem),
    x ∈ sortInsert a l → x = a ∨ x ∈ l := by
  intro a x l
  induction l with
  | nil =>
    intro h
    rw [show sortInsert a [] = [a] from rfl] at h
    exact Or.inl (List.mem_singleton.mp h)
  | cons b bs ih =>
    simp only [sortInsert]
    by_cases hle : itemLe a b = true
    · rw [if_pos hle]
      intro h
      rcases List.mem_cons.mp h with rfl | h'
      · exact Or.inl rfl
      · exact Or.inr h'
    · rw [if_neg hle]
      intro h
      rcases List.mem_cons.mp h with rfl | h'
      · exact Or.inr (List.mem_cons_self _ _)
      · rcases ih h' with rfl | h''
        · exact Or.inl rfl
        · exact Or.inr (List.mem_cons_of_mem b h'')

theorem mem_sortItems : ∀ (x : FItem) (l : List FItem),
    x ∈ sortItems l → x ∈ l := by
  intro x l
  induction l with
  | nil => intro h; exact absurd h (List.not_mem_nil x)
  | cons a as ih =>
    intro h
    rcases mem_sortInsert a x (sortItems as) h with rfl | h'
    · exact List.mem_cons_self _ _
    · exact List.mem_cons_of_mem a (ih h')

theorem allOK_iff : ∀ (l : List FItem),
    allOK l = true ↔ ∀ i ∈ l, itemOK i = true := by
  intro l
  induction l with
  | nil => simp [allOK]
  | cons a as ih => simp [allOK, ih]

theorem itemOK_buildItems_aux (n : Nat)
    (H : ∀ sub : List (String × FTree), sizeOf sub < n →
      ∀ rel, listingOK (getDirectoryContents sub rel) = true) :
    ∀ entries : List (String × FTree), sizeOf entries ≤ n → ∀ rel i,
      i ∈ buildItems entries rel → itemOK i = true := by
  intro entries
  induction entries with
  | nil =>
    intro _ rel i hi
    simp [buildItems] at hi
  | cons e rest ihe =>
    intro hsz rel i hi
    obtain ⟨entry, t⟩ := e
    have hszrest : sizeOf rest ≤ n := by
      have h1 : sizeOf rest < sizeOf ((entry, t) :: rest) := by
        simp [List.cons.sizeOf_spec] <;> omega
      omega
    by_cases hskip : (entry == ".metadata" || strStartsWith entry ".") = true
    · rw [show buildItems ((entry, t) :: rest) rel = buildItems rest rel from
        by simp [buildItems, hskip]] at hi
      exact ihe hszrest rel i hi
    · have hskip' : (entry == ".metadata" || strStartsWith entry ".") = false :=
        Bool.eq_false_iff.mpr hskip
      have hss : strStartsWith entry "." = false := by
        cases hss : strStartsWith entry "." with
        | false => rfl
        | true =>
          rw [hss, Bool.or_true] at hskip'
          exact Bool.noConfusion hskip'
      rw [show buildItems ((entry, t) :: rest) rel =
          buildEntry entry t rel :: buildItems rest rel from
        by simp [buildItems, hskip']] at hi
      rcases List.mem_cons.mp hi with rfl | hi'
      · cases t with
        | file size mtime =>
          simp [buildEntry, itemOK, hss]
        | dir mtime sub =>
          have hsub : sizeOf sub < n := by
            have h1 : sizeOf sub <
                sizeOf ((entry, FTree.dir mtime sub) :: rest) := by
              simp [List.cons.sizeOf_spec, Prod.mk.sizeOf_spec,
                FTree.dir.sizeOf_spec] <;> omega
            omega
          simp [buildEntry, itemOK, hss, H sub hsub (relName rel entry)]
      · exact ihe hszrest rel i hi'

theorem walker_listingOK : ∀ (n : Nat) (entries : List (String × FTree)),
    sizeOf entries < n → ∀ rel,
    listingOK (getDirectoryContents entries rel) = true := by
  intro n
  induction n with
  | zero =>
    intro entries h
    omega
  | succ n ih =>
    intro entries hsz rel
    rw [show getDirectoryContents entries rel =
        sortItems (buildItems entries rel) from by
      simp [getDirectoryContents]]
    rw [show listingOK (sortItems (buildItems entries rel)) =
        (itemsSortedOK (sortItems (buildItems entries rel)) &&
          allOK (sortItems (buildItems entries rel))) from by
      simp [listingOK]]
    rw [sortedOK_sortItems, Bool.true_and]
    refine (allOK_iff _).mpr ?_
    intro i hi
    exact itemOK_buildItems_aux n ih entries (by omega) rel i
      (mem_sortItems i _ hi)

/-- C9: for every directory tree the recursive listing is well-formed at
every level — no entry whose name starts with `.` (including `.metadata`)
survives at any depth, each level is ordered by the comparator (directories
before files, then name order), and every directory's recorded size is the
recursive total computed from its children — and on the spec's example
(subdirectory `A` holding one 10-byte file, top-level 20-byte file `B`,
returned by `readdir` in the order `B`, `A`) the list route answers
`totalFiles = 2` and `totalSize = 30` with `A` sorted before `B`. -/
theorem tree_listing_correct :
    (∀ (entries : List (String × FTree)) (rel : String),
      listingOK (getDirectoryContents entries rel) = true) ∧
    listRoute demoTreeEntries =
      ([FItem.mk "A" true "A" 10 7 ""
          [FItem.mk "f.txt" false "A/f.txt" 10 3 ".txt" []],
        FItem.mk "B" false "B" 20 5 "" []], 2, 30) := by
  constructor
  · intro entries rel
    exact walker_listingOK (sizeOf entries + 1) entries (by omega) rel
  · have hext1 : extOf "f.txt" = ".txt" := rfl
    have hext2 : extOf "B" = "" := rfl
    have hs1 : (("B" == ".metadata") || strStartsWith "B" ".") = false := rfl
    have hs2 : (("A" == ".metadata") || strStartsWith "A" ".") = false := rfl
    have hs3 : (("f.txt" == ".metadata") || strStartsWith "f.txt" ".") =
      false := rfl
    simp [listRoute, getDirectoryContents, buildItems, buildEntry,
      calculateTotalSize, countFiles, sortItems, sortInsert, itemLe,
      relName, FItem.isDir, FItem.name, demoTreeEntries, hext1, hext2,
      hs1, hs2, hs3]

/-! ### C6: concurrent callers of the file allocator -/

theorem get?_set_self : ∀ (l : List CallerState) (i : Nat)
    (a c : CallerState), l.get? i = some c → (l.set i a).get? i = some a := by
  intro l
  induction l with
  | nil =>
    intro i a c h
    simp [List.get?] at h
  | cons x xs ih =>
    intro i a c h
    cases i with
    | zero => rfl
    | succ n => exact ih n a c h

theorem get?_set_other : ∀ (l : List CallerState) (i j : Nat)
    (a : CallerState), i ≠ j → (l.set i a).get? j = l.get? j := by
  intro l
  induction l with
  | nil =>
    intro i j a _
    simp [List.set]
  | cons x xs ih =>
    intro i j a hij
    cases i with
    | zero =>
      cases j with
      | zero => exact absurd rfl hij
      | succ m => rfl
    | succ n =>
      cases j with
      | zero => rfl
      | succ m => exact ih n m a (fun h => hij (by rw [h]))

theorem stepEv_attempt_hit {dp : String} {s : ConcState} {i : Nat}
    {c : CallerState} (hgi : s.callers.get? i = some c)
    (hres : c.result = none)
    (hex : s.disk.contains (fileCandidate dp c.k) = true) :
    stepEv dp s (AEv.attempt i) =
      ⟨s.disk, s.contents, s.callers.set i ⟨c.k + 1, none⟩⟩ := by
  simp only [stepEv, hgi, hres, hex, eq_self_iff_true, if_true]

theorem stepEv_attempt_acquire {dp : String} {s : ConcState} {i : Nat}
    {c : CallerState} (hgi : s.callers.get? i = some c)
    (hres : c.result = none)
    (hex : s.disk.contains (fileCandidate dp c.k) = false) :
    stepEv dp s (AEv.attempt i) =
      ⟨fileCandidate dp c.k :: s.disk, s.contents,
       s.callers.set i ⟨c.k, some (fileCandidate dp c.k)⟩⟩ := by
  simp only [stepEv, hgi, hres, hex, Bool.false_eq_true, if_false]

theorem stepEv_write_eq {dp : String} {s : ConcState} {i d : Nat}
    {c : CallerState} {p : String} (hgi : s.callers.get? i = some c)
    (hres : c.result = some p) :
    stepEv dp s (AEv.write i d) =
      ⟨s.disk, (p, i, d) :: s.contents, s.callers⟩ := by
  simp only [stepEv, hgi, hres]

theorem goodState_init (n : Nat) : goodState (initState n) := by
  refine ⟨?_, ?_, ?_⟩
  · intro i ci p hget hres
    have hmem := List.get?_mem hget
    have hci := List.eq_of_mem_replicate hmem
    rw [hci] at hres
    exact Option.noConfusion hres
  · intro i j ci cj p q hgi _ hri _ _
    have hci := List.eq_of_mem_replicate (List.get?_mem hgi)
    rw [hci] at hri
    exact absurd hri (by simp)
  · intro p w d hmem
    exact absurd hmem (List.not_mem_nil _)

theorem goodState_step (dp : String) (s : ConcState) (e : AEv)
    (h : goodState s) : goodState (stepEv dp s e) := by
  obtain ⟨h1, h2, h3⟩ := h
  cases e with
  | attempt i =>
    cases hgi : s.callers.get? i with
    | none =>
      rw [show stepEv dp s (AEv.attempt i) = s from by
        simp only [stepEv, hgi]]
      exact ⟨h1, h2, h3⟩
    | some c =>
      cases hres : c.result with
      | some p =>
        rw [show stepEv dp s (AEv.attempt i) = s from by
          simp only [stepEv, hgi, hres]]
        exact ⟨h1, h2, h3⟩
      | none =>
        by_cases hex : s.disk.contains (fileCandidate dp c.k) = true
        · rw [stepEv_attempt_hit hgi hres hex]
          refine ⟨?_, ?_, ?_⟩
          · intro j cj p hgj hrj
            by_cases hji : j = i
            · subst hji
              rw [get?_set_self _ _ _ _ hgi, Option.some_inj] at hgj
              rw [← hgj] at hrj
              exact Option.noConfusion hrj
            · rw [get?_set_other _ _ _ _ (fun hh => hji hh.symm)] at hgj
              exact h1 j cj p hgj hrj
          · intro a b ca cb p q hga hgb hra hrb hab
            by_cases hai : a = i
            · subst hai
              rw [get?_set_self _ _ _ _ hgi, Option.some_inj] at hga
              rw [← hga] at hra
              exact Option.noConfusion hra
            · by_cases hbi : b = i
              · subst hbi
                rw [get?_set_self _ _ _ _ hgi, Option.some_inj] at hgb
                rw [← hgb] at hrb
                exact Option.noConfusion hrb
              · rw [get?_set_other _ _ _ _ (fun hh => hai hh.symm)] at hga
                rw [get?_set_other _ _ _ _ (fun hh => hbi hh.symm)] at hgb
                exact h2 a b ca cb p q hga hgb hra hrb hab
          · intro p w d hmem
            obtain ⟨cw, hgw, hrw⟩ := h3 p w d hmem
            by_cases hwi : w = i
            · subst hwi
              rw [hgi, Option.some_inj] at hgw
              rw [← hgw, hres] at hrw
              exact Option.noConfusion hrw
            · refine ⟨cw, ?_, hrw⟩
              rw [get?_set_other _ _ _ _ (fun hh => hwi hh.symm)]
              exact hgw
        · have hex' : s.disk.contains (fileCandidate dp c.k) = false :=
            Bool.eq_false_iff.mpr hex
          have hnotin : fileCandidate dp c.k ∉ s.disk :=
            fun hmem => hex (List.elem_iff.mpr hmem)
          rw [stepEv_attempt_acquire hgi hres hex']
          refine ⟨?_, ?_, ?_⟩
          · intro j cj p hgj hrj
            by_cases hji : j = i
            · subst hji
              rw [get?_set_self _ _ _ _ hgi, Option.some_inj] at hgj
              rw [← hgj] at hrj
              have hp : fileCandidate dp c.k = p := Option.some_inj.mp hrj
              rw [← hp]
              exact List.mem_cons_self _ _
            · rw [get?_set_other _ _ _ _ (fun hh => hji hh.symm)] at hgj
              exact List.mem_cons_of_mem _ (h1 j cj p hgj hrj)
          · intro a b ca cb p q hga hgb hra hrb hab
            by_cases hai : a = i
            · subst hai
              rw [get?_set_self _ _ _ _ hgi, Option.some_inj] at hga
              rw [← hga] at hra
              have hp : fileCandidate dp c.k = p := Option.some_inj.mp hra
              rw [get?_set_other _ _ _ _ hab] at hgb
              have hq := h1 b cb q hgb hrb
              intro hcontra
              rw [← hp] at hcontra
              exact hnotin (hcontra ▸ hq)
            · by_cases hbi : b = i
              · subst hbi
                rw [get?_set_self _ _ _ _ hgi, Option.some_inj] at hgb
                rw [← hgb] at hrb
                have hq : fileCandidate dp c.k = q := Option.some_inj.mp hrb
                rw [get?_set_other _ _ _ _ (fun hh => hai hh.symm)] at hga
                have hp := h1 a ca p hga hra
                intro hcontra
                rw [← hq] at hcontra
                exact hnotin (hcontra ▸ hp)
              · rw [get?_set_other _ _ _ _ (fun hh => hai hh.symm)] at hga
                rw [get?_set_other _ _ _ _ (fun hh => hbi hh.symm)] at hgb
                exact h2 a b ca cb p q hga hgb hra hrb hab
          · intro p w d hmem
            obtain ⟨cw, hgw, hrw⟩ := h3 p w d hmem
            by_cases hwi : w = i
            · subst hwi
              rw [hgi, Option.some_inj] at hgw
              rw [← hgw, hres] at hrw
              exact Option.noConfusion hrw
            · refine ⟨cw, ?_, hrw⟩
              rw [get?_set_other _ _ _ _ (fun hh => hwi hh.symm)]
              exact hgw
  | write i d =>
    cases hgi : s.callers.get? i with
    | none =>
      rw [show stepEv dp s (AEv.write i d) = s from by
        simp only [stepEv, hgi]]
      exact ⟨h1, h2, h3⟩
    | some c =>
      cases hres : c.result with
      | none =>
        rw [show stepEv dp s (AEv.write i d) = s from by
          simp only [stepEv, hgi, hres]]
        exact ⟨h1, h2, h3⟩
      | some p0 =>
        rw [stepEv_write_eq hgi hres]
        refine ⟨h1, h2, ?_⟩
        intro p w d' hmem
        rcases List.mem_cons.mp hmem with heq | hmem'
        · have hp : p = p0 := congrArg Prod.fst heq
          have hw : w = i := congrArg (fun x => x.2.1) heq
          subst hp
          subst hw
          exact ⟨c, hgi, hres⟩
        · exact h3 p w d' hmem'

theorem goodState_run (dp : String) : ∀ (evs : List AEv) (s : ConcState),
    goodState s → goodState (runEvents dp s evs) := by
  intro evs
  induction evs with
  | nil => intro s h; exact h
  | cons e evs' ih =>
    intro s h
    exact ih (stepEv dp s e) (goodState_step dp s e h)

/-- C6: under every interleaving of any number of concurrent callers racing
the file allocator for the same desired path, callers that have succeeded
hold pairwise-distinct final paths (the exclusive create is the existence
check, so no two attempts can win the same candidate), and every write
record lies on the path of its writer's own exclusive handle — no lost or
cross-written content; the demo schedule shows three callers all succeeding
with the candidates `a.txt`, `a (1).txt`, `a (2).txt` and each file holding
exactly its own caller's data. -/
theorem concurrent_allocation_safe :
    (∀ (dp : String) (evs : List AEv) (n i j : Nat)
      (ci cj : CallerState) (p q : String),
      (runEvents dp (initState n) evs).callers.get? i = some ci →
      (runEvents dp (initState n) evs).callers.get? j = some cj →
      ci.result = some p → cj.result = some q → i ≠ j → p ≠ q) ∧
    (∀ (dp : String) (evs : List AEv) (n : Nat) (p : String) (w d : Nat),
      (p, w, d) ∈ (runEvents dp (initState n) evs).contents →
      ∃ cw, (runEvents dp (initState n) evs).callers.get? w = some cw ∧
        cw.result = some p) ∧
    runEvents "/up/a.txt" (initState 3) demoSchedule = demoFinal := by
  refine ⟨?_, ?_, ?_⟩
  · intro dp evs n i j ci cj p q hgi hgj hri hrj hij
    exact (goodState_run dp evs _ (goodState_init n)).2.1 i j ci cj p q
      hgi hgj hri hrj hij
  · intro dp evs n p w d hmem
    exact (goodState_run dp evs _ (goodState_init n)).2.2 p w d hmem
  · decide

/-- Witness for `concurrent_allocation_safe`: callers 0 and 1 of the demo
schedule hold distinct paths, and the record written through caller 1's
handle lies on caller 1's own path. -/
theorem concurrent_allocation_safe_witness :
    ("/up/a.txt" : String) ≠ "/up/a (1).txt" ∧
    ∃ cw, (runEvents "/up/a.txt" (initState 3) demoSchedule).callers.get? 1 =
        some cw ∧ cw.result = some "/up/a (1).txt" :=
  ⟨concurrent_allocation_safe.1 "/up/a.txt" demoSchedule 3 0 1
      ⟨0, some "/up/a.txt"⟩ ⟨1, some "/up/a (1).txt"⟩ "/up/a.txt"
      "/up/a (1).txt" (by decide) (by decide) (by decide) (by decide)
      (by decide),
   concurrent_allocation_safe.2.1 "/up/a.txt" demoSchedule 3
      "/up/a (1).txt" 1 101 (by decide)⟩

end DumbDrop
